import Mathlib

/-!
Verification of the shikaku pattern compactor and phonetic transliterator
(shikaku/utils.py: either, katakana_to_vowels, count_mora_in_katakana) and of
the Markov chain graph extraction (shikaku/textmodel.py: TextModel.plot), as a
shallow embedding.  Python strings become lists of characters; Python sets of
strings become lists considered up to permutation, and frozen sets are
represented canonically as sorted, deduplicated lists, so that Python's
extensional set equality becomes equality of representations.  Python's stable
sorted becomes List.insertionSort: every sort whose result order is observable
in the output uses a total order as key, so any sorted permutation of the
input is the unique possible output and stability is irrelevant (this is what
the determinism proofs below establish).
-/

set_option maxRecDepth 100000

/-- Python strings, as lists of unicode code points. -/
abbrev Str := List Char

namespace Shikaku

/-- The characters escaped by Python's re.escape
(CPython _special_chars_map: the bytes of "()[]{}?*+-|^$\\.&~# \t\n\r\v\f"). -/
def specialChars : Str :=
  ['(', ')', '[', ']', '{', '}', '?', '*', '+', '-', '|', '^', '$', '\\',
   '.', '&', '~', '#', ' ', '\t', '\n', '\r', '\x0b', '\x0c']

/-- Python re.escape on a single character. -/
def escChar (c : Char) : Str := if c ∈ specialChars then ['\\', c] else [c]

/-- Python re.escape (utils.py applies it to strings in lines 52-76). -/
def reEscape (s : Str) : Str := s.flatMap escChar

/-- Ordering by Python sort key len with reverse=True (utils.py line 23). -/
def lenGe (a b : Str) : Prop := b.length ≤ a.length

instance : DecidableRel lenGe := fun a b => Nat.decLe b.length a.length

instance : IsTotal Str lenGe := ⟨fun a b => Nat.le_total b.length a.length⟩

instance : IsTrans Str lenGe := ⟨fun _ _ _ h1 h2 => Nat.le_trans h2 h1⟩

/-- Ordering by Python sort key (-len(x), x) (utils.py lines 60, 70, 78):
longer strings first, ties broken lexicographically ascending. -/
def negLenLex (a b : Str) : Prop :=
  b.length < a.length ∨ (a.length = b.length ∧ a ≤ b)

instance : DecidableRel negLenLex := fun _ _ => instDecidableOr

instance : IsTotal Str negLenLex := by
  constructor
  intro a b
  rcases Nat.lt_trichotomy a.length b.length with h | h | h
  · exact Or.inr (Or.inl h)
  · rcases le_total a b with h' | h'
    · exact Or.inl (Or.inr ⟨h, h'⟩)
    · exact Or.inr (Or.inr ⟨h.symm, h'⟩)
  · exact Or.inl (Or.inl h)

instance : IsTrans Str negLenLex := by
  constructor
  rintro a b c (h1 | ⟨e1, h1⟩) (h2 | ⟨e2, h2⟩)
  · exact Or.inl (h2.trans h1)
  · exact Or.inl (e2 ▸ h1)
  · exact Or.inl (e1 ▸ h2)
  · exact Or.inr ⟨e1.trans e2, h1.trans h2⟩

instance : IsAntisymm Str negLenLex := by
  constructor
  rintro a b (h1 | ⟨e1, h1⟩) (h2 | ⟨e2, h2⟩)
  · exact absurd h1 (Nat.lt_asymm h2)
  · exact absurd h1 (by rw [e2]; exact Nat.lt_irrefl _)
  · exact absurd h2 (by rw [e1]; exact Nat.lt_irrefl _)
  · exact le_antisymm h1 h2

/-- Canonical representation of a Python frozenset of strings: sorted without
duplicates.  Extensional set equality becomes equality of representations. -/
def canon (l : List Str) : List Str := List.insertionSort (· ≤ ·) l.dedup

/-- utils.py line 23: strings = sorted(strings, key=len, reverse=True). -/
def strsByLen (l : List Str) : List Str := List.insertionSort lenGe l

/-- utils.py lines 27-35: each length-at-least-2 string contributes
(first character, rest). -/
def longPairs (l : List Str) : List (Char × Str) :=
  (strsByLen l).filterMap fun s =>
    match s with
    | c :: d :: t => some (c, d :: t)
    | _ => none

/-- The suffix set prefix[c] of utils.py lines 27-35, canonically represented. -/
def sset (l : List Str) (c : Char) : List Str :=
  canon ((longPairs l).filterMap fun p => if p.1 = c then some p.2 else none)

/-- Sort key of utils.py line 39: lambda x: (-len(prefix[x]), x, prefix[x]).
The last component is never reached because dictionary keys are distinct. -/
def fkeyOrder (l : List Str) (c d : Char) : Prop :=
  (sset l d).length < (sset l c).length ∨
    ((sset l c).length = (sset l d).length ∧ c ≤ d)

instance (l : List Str) : DecidableRel (fkeyOrder l) := fun _ _ => instDecidableOr

instance (l : List Str) : IsTotal Char (fkeyOrder l) := by
  constructor
  intro a b
  rcases Nat.lt_trichotomy (sset l a).length (sset l b).length with h | h | h
  · exact Or.inr (Or.inl h)
  · rcases le_total a b with h' | h'
    · exact Or.inl (Or.inr ⟨h, h'⟩)
    · exact Or.inr (Or.inr ⟨h.symm, h'⟩)
  · exact Or.inl (Or.inl h)

instance (l : List Str) : IsTrans Char (fkeyOrder l) := by
  constructor
  rintro a b c (h1 | ⟨e1, h1⟩) (h2 | ⟨e2, h2⟩)
  · exact Or.inl (h2.trans h1)
  · exact Or.inl (e2 ▸ h1)
  · exact Or.inl (e1 ▸ h2)
  · exact Or.inr ⟨e1.trans e2, h1.trans h2⟩

/-- The keys of frozen_prefix in their iteration order (utils.py lines 37-40):
first characters of length-at-least-2 strings, sorted by fkeyOrder. -/
def fkeys (l : List Str) : List Char :=
  List.insertionSort (fkeyOrder l) ((longPairs l).map Prod.fst).dedup

/-- utils.py lines 42-51: group first characters into classes of equal suffix
sets, skipping suffix sets already seen; each class records the member
characters (representative first, then the others in frozen_prefix order,
exactly as the Python loop builds the list a) and the shared suffix set. -/
def classGo (l : List Str) : List Char → List (List Str) →
    List (List Char × List Str)
  | [], _ => []
  | c :: rest, seen =>
    if sset l c ∈ seen then classGo l rest seen
    else
      (c :: (fkeys l).filter (fun d => decide (d ≠ c) && decide (sset l d = sset l c)),
        sset l c) :: classGo l rest (sset l c :: seen)

/-- The classes of utils.py lines 42-51. -/
def classes (l : List Str) : List (List Char × List Str) := classGo l (fkeys l) []

/-- The shapes of regular-expression fragments emitted by either: an escaped
literal character, a character class, and a non-capturing group of literal
alternatives.  Rendering a piece list reproduces the exact strings built by
utils.py lines 47-80. -/
inductive Piece where
  | pchr (c : Char)
  | pcls (cs : List Char)
  | palts (ss : List Str)
deriving DecidableEq

/-- Render one piece to pattern text, exactly as utils.py concatenates it. -/
def renderPiece : Piece → Str
  | .pchr c => escChar c
  | .pcls cs => '[' :: cs.flatMap escChar ++ [']']
  | .palts ss => '(' :: '?' :: ':' :: List.intercalate ['|'] (ss.map reEscape) ++ [')']

/-- Render a fragment (a concatenation of pieces). -/
def renderPieces (ps : List Piece) : Str := ps.flatMap renderPiece

/-- utils.py lines 47-68: the fragment p1 + p2 for one class.  p1 is a sorted
character class when the class has at least two members, else the escaped lone
character (line 52-54).  p2 is, for at least two suffixes, a non-capturing
group sorted by (-len, lex) if any suffix is longer than one character, else a
character class of the suffix characters sorted ascending (lines 55-65); for a
single suffix it is that suffix escaped (line 67).  Rendering the character
class of one-character suffixes escapes each suffix, which coincides with
escaping its character. -/
def p2Pieces (s1 : List Str) : List Piece :=
  if 2 ≤ s1.length then
    if s1.any (fun s => decide (1 < s.length)) then
      [Piece.palts (List.insertionSort negLenLex s1)]
    else [Piece.pcls ((List.insertionSort (· ≤ ·) s1).map (fun s => s.headD default))]
  else (s1.headD []).map Piece.pchr

/-- The fragment for one class: the prefix piece and the suffix piece. -/
def classPieces (cl : List Char × List Str) : List Piece :=
  (if 2 ≤ cl.1.length then [Piece.pcls (List.insertionSort (· ≤ ·) cl.1)]
   else [Piece.pchr (cl.1.headD default)]) ++ p2Pieces cl.2

/-- utils.py lines 25-70: the list result2, sorted by (-len, lex). -/
def result2 (l : List Str) : List Str :=
  List.insertionSort negLenLex ((classes l).map fun cl => renderPieces (classPieces cl))

/-- utils.py lines 74-76: the length-1 strings, in sorted-by-length order. -/
def singles (l : List Str) : List Str :=
  (strsByLen l).filter fun s => s.length == 1

/-- utils.py lines 72-78: escaped length-1 strings sorted by (-len, lex). -/
def result1raw (l : List Str) : List Str :=
  List.insertionSort negLenLex ((singles l).map reEscape)

/-- utils.py lines 79-80: two or more escaped length-1 strings merge into one
character class. -/
def result1 (l : List Str) : List Str :=
  if 2 ≤ (result1raw l).length then ['[' :: (result1raw l).flatten ++ [']']]
  else result1raw l

/-- utils.py either (lines 10-84): the source text of the compiled pattern
(re.compile("|".join(result)) with result = result2 + result1). -/
def either (l : List Str) : Str := List.intercalate ['|'] (result2 l ++ result1 l)

/-! Semantics of the emitted patterns.  The compactor hands its pattern text
to Python's re engine; we model the fragment of regular-expression syntax the
compactor emits (escaped literals, character classes, non-capturing groups of
literal alternatives, top-level alternation) with Python's leftmost-earliest
backtracking semantics: alternatives are tried left to right and the first
one that lets the rest of the pattern succeed wins. -/

/-- Atoms of the emitted regular-expression fragment. -/
inductive RAtom where
  | chr (c : Char)
  | cls (cs : List Char)
  | alts (ss : List Str)
deriving DecidableEq

/-- First non-none value of f over the list, in order. -/
def firstSome {α β : Type} : List α → (α → Option β) → Option β
  | [], _ => none
  | a :: as, f =>
    match f a with
    | some b => some b
    | none => firstSome as f

/-- Whether the first argument is an initial segment of the second. -/
def startsWith : Str → Str → Bool
  | [], _ => true
  | _ :: _, [] => false
  | a :: as, b :: bs => a == b && startsWith as bs

/-- Leftmost-earliest matching of a sequence of atoms against the front of the
text; returns the remaining text on success.  Alternation groups try their
alternatives left to right, backtracking into the remaining atoms. -/
def matchSeq : List RAtom → Str → Option Str
  | [], text => some text
  | .chr _ :: _, [] => none
  | .chr c :: as, d :: rest => if d = c then matchSeq as rest else none
  | .cls _ :: _, [] => none
  | .cls cs :: as, d :: rest => if d ∈ cs then matchSeq as rest else none
  | .alts ss :: as, text =>
    firstSome ss fun s =>
      if startsWith s text then matchSeq as (text.drop s.length) else none

/-- Matching a top-level alternation of fragments anchored at the start of the
text: fragments are tried left to right and the first that matches wins; the
result is the number of characters its match consumed. -/
def matchPat (P : List (List RAtom)) (text : Str) : Option Nat :=
  firstSome P fun f => (matchSeq f text).map fun rest => text.length - rest.length

/-- Parse the body of a character class, after its opening bracket, up to the
closing bracket; a backslash escapes the following character. -/
def parseClassBody : Str → Option (List Char × Str)
  | [] => none
  | c :: rest =>
    if c = ']' then some ([], rest)
    else if c = '\\' then
      match rest with
      | [] => none
      | d :: rest2 => (parseClassBody rest2).map fun p => (d :: p.1, p.2)
    else (parseClassBody rest).map fun p => (c :: p.1, p.2)

theorem parseClassBody_lt :
    ∀ t cs r, parseClassBody t = some (cs, r) → r.length < t.length := by
  intro t
  induction t using parseClassBody.induct with
  | case1 => intro cs r h; simp [parseClassBody] at h
  | case2 rest =>
    intro cs r h
    rw [parseClassBody.eq_def] at h
    simp at h
    obtain ⟨h1, h2⟩ := h
    subst h2
    simp
  | case3 h1 =>
    intro cs r h
    rw [parseClassBody.eq_def] at h
    simp at h
  | case4 d rest2 h1 ih =>
    intro cs r h
    rw [parseClassBody.eq_def] at h
    simp [Option.map_eq_some'] at h
    obtain ⟨p1, hp, he⟩ := h
    have := ih p1 r hp
    simp
    omega
  | case5 c rest h1 h2 ih =>
    intro cs r h
    rw [parseClassBody.eq_def] at h
    simp [Option.map_eq_some', h1, h2] at h
    obtain ⟨p1, hp, he⟩ := h
    have := ih p1 r hp
    simp
    omega

/-- Parse one alternative of a non-capturing group: an escaped literal, ending
before an unescaped bar or closing parenthesis. -/
def parseAltItem : Str → Option (Str × Str)
  | [] => none
  | c :: rest =>
    if c = '|' ∨ c = ')' then some ([], c :: rest)
    else if c = '\\' then
      match rest with
      | [] => none
      | d :: rest2 => (parseAltItem rest2).map fun p => (d :: p.1, p.2)
    else (parseAltItem rest).map fun p => (c :: p.1, p.2)

theorem parseAltItem_le :
    ∀ t s r, parseAltItem t = some (s, r) → r.length ≤ t.length := by
  intro t
  induction t using parseAltItem.induct with
  | case1 => intro s r h; simp [parseAltItem] at h
  | case2 c rest h1 =>
    intro s r h
    rw [parseAltItem.eq_def] at h
    simp [h1] at h
    obtain ⟨h2, h3⟩ := h
    subst h3
    simp
  | case3 h1 =>
    intro s r h
    rw [parseAltItem.eq_def] at h
    simp [h1] at h
  | case4 d rest2 h1 ih =>
    intro s r h
    rw [parseAltItem.eq_def] at h
    simp [h1, Option.map_eq_some'] at h
    obtain ⟨p1, hp, he⟩ := h
    have := ih p1 r hp
    simp
    omega
  | case5 c rest h1 h2 ih =>
    intro s r h
    rw [parseAltItem.eq_def] at h
    simp [h1, h2, Option.map_eq_some'] at h
    obtain ⟨p1, hp, he⟩ := h
    have := ih p1 r hp
    simp
    omega

/-- Parse the alternatives of a non-capturing group, after its opening "(?:",
up to the closing parenthesis.  Fueled: one unit of fuel per alternative; the
wrapper below supplies enough fuel for any input. -/
def parseAltsF : Nat → Str → Option (List Str × Str)
  | 0, _ => none
  | fuel + 1, t =>
    match parseAltItem t with
    | none => none
    | some (s, r) =>
      match r with
      | ')' :: rest => some ([s], rest)
      | '|' :: rest =>
        match parseAltsF fuel rest with
        | none => none
        | some (ss, r2) => some (s :: ss, r2)
      | _ => none

/-- Parse the alternatives of a non-capturing group.  Every alternative costs
at least one input character, so length-plus-one fuel always suffices. -/
def parseAlts (t : Str) : Option (List Str × Str) := parseAltsF (t.length + 1) t

/-- Parse one fragment of a top-level alternation: a sequence of atoms ending
at an unescaped top-level bar or at the end of the pattern.  A parenthesis not
followed by "?:" is treated as a literal (the compactor never emits one).
Fueled: one unit of fuel per atom. -/
def parseFragF : Nat → Str → Option (List RAtom × Str)
  | 0, _ => none
  | fuel + 1, t =>
    match t with
    | [] => some ([], [])
    | '|' :: rest => some ([], '|' :: rest)
    | '[' :: rest =>
      match parseClassBody rest with
      | none => none
      | some (cs, r) =>
        match parseFragF fuel r with
        | none => none
        | some (as, r2) => some (.cls cs :: as, r2)
    | '\\' :: [] => none
    | '\\' :: d :: rest2 =>
      match parseFragF fuel rest2 with
      | none => none
      | some (as, r2) => some (.chr d :: as, r2)
    | '(' :: '?' :: ':' :: rest3 =>
      match parseAlts rest3 with
      | none => none
      | some (ss, r) =>
        match parseFragF fuel r with
        | none => none
        | some (as, r2) => some (.alts ss :: as, r2)
    | c :: rest =>
      match parseFragF fuel rest with
      | none => none
      | some (as, r2) => some (.chr c :: as, r2)

/-- Parse one fragment.  Every atom costs at least one input character, so
length-plus-one fuel always suffices. -/
def parseFrag (t : Str) : Option (List RAtom × Str) := parseFragF (t.length + 1) t

/-- Parse a pattern: fragments separated by top-level bars.  Fueled: one unit
of fuel per fragment. -/
def parsePatF : Nat → Str → Option (List (List RAtom))
  | 0, _ => none
  | fuel + 1, t =>
    match parseFrag t with
    | none => none
    | some (f, r) =>
      match r with
      | [] => some [f]
      | '|' :: rest =>
        match parsePatF fuel rest with
        | none => none
        | some fs => some (f :: fs)
      | _ => none

/-- Parse a pattern source text into its fragments.  Every fragment costs at
least one input character... the empty pattern parses to one empty fragment,
matching Python's re.compile("") which matches the empty string anywhere. -/
def parsePat (t : Str) : Option (List (List RAtom)) := parsePatF (t.length + 1) t

/-- Python re leftmost-earliest matching of a pattern source text anchored at
the start of a text: parse the source, then match; the result is the length
of the match. -/
def reMatch (pat : Str) (text : Str) : Option Nat :=
  match parsePat pat with
  | none => none
  | some P => matchPat P text

example : either ["a".toList] = "a".toList := by decide
example : either ["a".toList, "b".toList, "c".toList] = "[abc]".toList := by decide
example : either ["ad".toList, "bd".toList, "cd".toList] = "[abc]d".toList := by decide
example : either ["ab".toList, "ac".toList, "ad".toList] = "a[bcd]".toList := by decide
example : either ["ac".toList, "ad".toList, "bc".toList, "bd".toList] = "[ab][cd]".toList := by decide
example : either ["abc".toList, "ad".toList] = "a(?:bc|d)".toList := by decide
example : either [] = [] := by decide
example : either ["0".toList, "|".toList] = "[\\|0]".toList := by decide
example : reMatch ("a(?:bc|d)".toList) ("ad".toList) = some 2 := by decide
example : reMatch ("a(?:bc|d)".toList) ("abc".toList) = some 3 := by decide
example : reMatch (either ["ab".toList, "a".toList]) ("a".toList) = some 1 := by decide
example : reMatch (either ["ab".toList, "a".toList]) ("ab".toList) = some 2 := by decide
example : reMatch ([] : Str) ([] : Str) = some 0 := by decide
example : reMatch (either ["0".toList, "|".toList]) ("|".toList) = some 1 := by decide

/-! Phonetic transliterator (utils.py lines 87-182). -/

/-- utils.py lines 89-97: the single-character vowel rows.  The first row's
source string contains katakana A followed by the combining voiced sound mark
U+3099 (there is no precomposed voiced katakana A), so iterating it maps both
katakana A to itself and the combining mark to katakana A, exactly like the
Python loop over the characters of each row. -/
def vowelRows1 : List (Char × String) :=
  [('ア', "カサタナハマヤラワア゙ガザダバヷパァ"),
  ('イ', "キシチニヒミリヰギジヂビヸピィ"),
  ('ウ', "クスツヌフムユルグズヅブヴプゥ"),
  ('エ', "ケセテネヘメレヱゲゼデベヹペェ"),
  ('オ', "コソトノホモヨロヲゴゾドボヺポォ")]

/-- utils.py lines 88-97: to_vowel_map1 as an association list in insertion
order; its keys are distinct (checked below), so first-match lookup agrees
with the Python dictionary. -/
def to_vowel_map1 : List (Char × Char) :=
  vowelRows1.flatMap fun r => r.2.toList.map fun c => (c, r.1)

/-- Python str.translate with the table of to_vowel_map1 (utils.py lines
99, 157): mapped code points are replaced, others pass through unchanged. -/
def translate1 (t : Str) : Str :=
  t.map fun c => (to_vowel_map1.lookup c).getD c

/-- utils.py lines 101-128: the two-character rows (vowel, consonant row,
small-kana suffix). -/
def vowelRows2 : List (Char × String × Char) :=
  [('ア', "キシチニヒミリギジヂビヸピ", 'ャ'),
  ('ウ', "キシチニヒミリギジヂビヸピ", 'ュ'),
  ('オ', "キシチニヒミリギジヂビヸピ", 'ョ'),
  ('ア', "クグ", 'ヮ'),
  ('ア', "ツフヴ", 'ァ'),
  ('イ', "ステツフズデヴ", 'ィ'),
  ('ウ', "トホド", 'ゥ'),
  ('エ', "シチツフジヴ", 'ェ'),
  ('オ', "ツフヴ", 'ォ'),
  ('エ', "イキニヒピミリギビ", 'ェ'),
  ('ア', "ステツフズデヴ", 'ャ'),
  ('ウ', "ステツフズデヴ", 'ュ'),
  ('オ', "ステツフズデヴ", 'ョ'),
  ('ア', "クスヌプムルグズブ", 'ァ'),
  ('イ', "ウクヌプムルグブ", 'ィ'),
  ('エ', "ウクスヌプムルグズブ", 'ェ'),
  ('オ', "ウクスヌプムルグズブ", 'ォ')]

/-- utils.py lines 101-128: to_vowel_map2, keys c + b of two code points, as
an association list in insertion order; its keys are distinct (checked
below), so first-match lookup agrees with the Python dictionary, and
iterating the dictionary yields the keys in this order. -/
def to_vowel_map2 : List (Str × Char) :=
  vowelRows2.flatMap fun r => (r.2.1.toList.map fun c => ([c, r.2.2], r.1))

example : (to_vowel_map1.map Prod.fst).Nodup := by decide
example : (to_vowel_map2.map Prod.fst).Nodup := by decide

/-- utils.py line 130: to_vowel_re = either(to_vowel_map2). -/
def toVowelPatSrc : Str := either (to_vowel_map2.map Prod.fst)

/-- The parsed form of the compiled pattern. -/
def toVowelPat : Option (List (List RAtom)) := parsePat toVowelPatSrc

/-- Python re.sub scanning (used at utils.py line 156): at each position try
the pattern; on a match of k+1 characters apply the replacement function to
the matched substring and continue after the match; otherwise copy one
character and move on.  On a zero-width match the replacement of the empty
match is emitted before the next character (for the compiled vowel-table
pattern every match consumes at least one character, so that branch is
unreachable).  Fueled: one unit per scanned position. -/
def reSubF (P : List (List RAtom)) (f : Str → Option Str) : Nat → Str → Option Str
  | 0, _ => none
  | _ + 1, [] => some []
  | fuel + 1, c :: rest =>
    match matchPat P (c :: rest) with
    | none =>
      match reSubF P f fuel rest with
      | none => none
      | some t => some (c :: t)
    | some 0 =>
      match f [] with
      | none => none
      | some rep =>
        match reSubF P f fuel rest with
        | none => none
        | some t => some (rep ++ c :: t)
    | some (k + 1) =>
      match f (List.take (k + 1) (c :: rest)) with
      | none => none
      | some rep =>
        match reSubF P f fuel (List.drop k rest) with
        | none => none
        | some t => some (rep ++ t)

/-- Python re.sub; every scanned position costs at least one character, so
length-plus-one fuel always suffices. -/
def reSub (P : List (List RAtom)) (f : Str → Option Str) (t : Str) : Option Str :=
  reSubF P f (t.length + 1) t

/-- The replacement of utils.py line 156, lambda m: _to_vowel_map[m.group(0)];
a missing key would raise, modelled by none. -/
def vowelRepl (m : Str) : Option Str := (to_vowel_map2.lookup m).map fun a => [a]

/-- utils.py katakana_to_vowels (lines 138-157): substitute two-character
units through the compiled pattern, then translate single characters. -/
def katakana_to_vowels (t : Str) : Option Str :=
  match toVowelPat with
  | none => none
  | some P =>
    match reSub P vowelRepl t with
    | none => none
    | some r => some (translate1 r)

/-- The character class of utils.py line 182. -/
def moraChars : Str := "アイウエオッンー".toList

/-- utils.py _count_mora_in_katakana (lines 181-182): the number of re.findall
matches of the one-character class, which is the count of such characters. -/
def countMoraChars (t : Str) : Nat :=
  (t.filter fun c => decide (c ∈ moraChars)).length

/-- utils.py count_mora_in_katakana (lines 160-178). -/
def count_mora_in_katakana (t : Str) : Option Nat :=
  match katakana_to_vowels t with
  | none => none
  | some r => some (countMoraChars r)

example : katakana_to_vowels "コンピューター".toList = some ("オンウーアー".toList) := by decide
example : katakana_to_vowels "シークヮーサー".toList = some ("イーアーアー".toList) := by decide
example : katakana_to_vowels "シミュレーション".toList = some ("イウエーオン".toList) := by decide
example : count_mora_in_katakana "シークヮーサー".toList = some 6 := by decide
example : count_mora_in_katakana "ヱヴァンゲリヲン".toList = some 7 := by decide
example : count_mora_in_katakana "デュアルディスプレイ".toList = some 8 := by decide

/-! Markov chain graph extraction (textmodel.py, TextModel.plot, lines
218-319).  The plotting call itself (matplotlib, igraph, lines 300-317) is
out of scope; what is modelled is the traversal that builds the vertex list,
the edge list and the edge weights (lines 260-298). -/

/-- The markovify sentinel tokens (markovify.chain BEGIN and END, imported at
textmodel.py line 13). -/
def BEGINTOK : String := "___BEGIN__"

/-- The markovify end sentinel. -/
def ENDTOK : String := "___END__"

/-- A Markov state: the tuple of the last state-size tokens.  The begin state
is state-size copies of BEGIN (line 262); the end state is the single END
token (line 263). -/
abbrev MState := List String

/-- A trained chain model: the state size and, for each state, its transitions
(next token, raw weight) in dictionary iteration order.  This is the part of
the markovify model that plot reads (lines 260-261, 284-289): membership of a
state and its transition dictionary.  Raw weights are the non-negative
training counts. -/
structure Model where
  n : Nat
  table : List (MState × List (String × Nat))

/-- textmodel.py line 262: beginning_state = (BEGIN,) * n. -/
def beginningState (m : Model) : MState := List.replicate m.n BEGINTOK

/-- textmodel.py line 263: ending_state = (END,). -/
def endingState : MState := [ENDTOK]

/-- The membership and transition lookup of the model dictionary (lines 284,
287-289). -/
def lookupTable (m : Model) (s : MState) : Option (List (String × Nat)) :=
  m.table.lookup s

/-- textmodel.py lines 290-293: the successor state of one transition. -/
def nextStateOf (state : MState) (w : String) : MState :=
  if w = ENDTOK then endingState else state.drop 1 ++ [w]

/-- The traversal state built by plot: vertices in registration order (Python
assigns each newly seen state the index len(vertices), which is its position
in this list), edges as pairs of vertex indices, and the edge weights. -/
structure Trav where
  vertices : List MState
  edges : List (Nat × Nat)
  weights : List ℚ
deriving DecidableEq

/-- The index of a vertex in the registration list (the value vertices[state]
of the Python dictionary). -/
def idxOf (vs : List MState) (v : MState) : Nat :=
  match vs with
  | [] => 0
  | u :: rest => if u = v then 0 else idxOf rest v + 1

/-- The loop over m[state].items() of textmodel.py lines 289-296,
parameterized by the recursive traversal call: traverse next_state, then
append the edge (vertices[state], vertices[next_state]) and the weight
weight/total_weight, then continue with the remaining transitions. -/
def travGo (trav : MState → Trav → Trav) (state : MState) (total : ℚ) :
    List (String × Nat) → Trav → Trav
  | [], σ => σ
  | (w, wt) :: ts, σ =>
    let ns := nextStateOf state w
    let σ1 := trav ns σ
    travGo trav state total ts
      { σ1 with
        edges := σ1.edges ++ [(idxOf σ1.vertices state, idxOf σ1.vertices ns)],
        weights := σ1.weights ++ [(wt : ℚ) / total] }

/-- textmodel.py lines 279-296, traverse(state): return if the state was
already visited, else register it; if it has no transitions stop, else sum
the raw weights and run the transition loop.  The Python recursion needs no
fuel; the fuel here only bounds the recursion depth and extract supplies
enough that it can never reach zero (each nested call strictly grows the
vertex list, which lives inside a finite universe). -/
def traverse (m : Model) : Nat → MState → Trav → Trav
  | 0, _, σ => σ
  | fuel + 1, state, σ =>
    if state ∈ σ.vertices then σ
    else
      let σ0 : Trav := { σ with vertices := σ.vertices ++ [state] }
      match lookupTable m state with
      | none => σ0
      | some ts =>
        travGo (traverse m fuel) state ((ts.map fun p => (p.2 : ℚ)).sum) ts σ0

/-- One more than the number of registrable vertices: begin state, end state
and one successor per transition of the table. -/
def fuelBound (m : Model) : Nat := (m.table.map fun e => e.2.length).sum + 2

/-- textmodel.py lines 260-298: the graph extraction, a traversal from the
begin state on an empty graph. -/
def extract (m : Model) : Trav :=
  traverse m (fuelBound m) (beginningState m) ⟨[], [], []⟩

/-- textmodel.py lines 269-277, get_state_name: the label of a state. -/
def get_state_name (state : MState) : String :=
  if state.all (· == BEGINTOK) then "BEGIN"
  else if ENDTOK ∈ state then "END"
  else ",".intercalate (state.dropWhile (· == BEGINTOK))

/-- The vertex labels of the plotted graph (textmodel.py line 307). -/
def extractLabels (m : Model) : List String :=
  (extract m).vertices.map get_state_name

/-- A model with one cycle, used as a concrete witness below. -/
def cm1 : Model :=
  ⟨1, [(["___BEGIN__"], [("a", 1)]), (["a"], [("a", 2), ("___END__", 1)])]⟩

example : (extract cm1).vertices = [["___BEGIN__"], ["a"], ["___END__"]] := by decide
example : (extract cm1).edges = [(1, 1), (1, 2), (0, 1)] := by decide

/-! Claim theorems. -/

/-- C1: the pattern compactor reproduces the pinned test vectors exactly
(tests/test_utils.py, test_either): compact of {"a"} yields pattern source
"a"; of {"a","b","c"} yields "[abc]"; of {"ad","bd","cd"} yields "[abc]d"; of
{"ab","ac","ad"} yields "a[bcd]"; of {"ac","ad","bc","bd"} yields "[ab][cd]";
and of {"abc","ad"} yields "a(?:bc|d)".  The sets are enumerated in the order
of the pinned tests; by the determinism theorem for C4 every other
enumeration order compiles to the same source. -/
theorem C1_compact_pinned_vectors :
    either ["a".toList] = "a".toList ∧
    either ["a".toList, "b".toList, "c".toList] = "[abc]".toList ∧
    either ["ad".toList, "bd".toList, "cd".toList] = "[abc]d".toList ∧
    either ["ab".toList, "ac".toList, "ad".toList] = "a[bcd]".toList ∧
    either ["ac".toList, "ad".toList, "bc".toList, "bd".toList] = "[ab][cd]".toList ∧
    either ["abc".toList, "ad".toList] = "a(?:bc|d)".toList := by
  refine ⟨?_, ?_, ?_, ?_, ?_, ?_⟩ <;> decide

/-- C3 counterexample: called on the empty set, the compactor does not raise;
utils.py line 84 compiles "|".join([]) and returns the pattern with empty
source, which even matches the empty string at position 0.  This contradicts
the claim that the empty set fails fast with InvalidInput and produces no
pattern. -/
theorem C3_counterexample :
    either [] = [] ∧ reMatch (either []) [] = some 0 := by
  exact ⟨by decide, by decide⟩

/-- C3 amended: on the empty set of strings the compactor raises nothing and
returns a compiled pattern whose source is the empty string. -/
theorem C3_empty_set_gives_empty_pattern : either [] = [] := by decide

/-- C6: the transliterator reproduces the pinned vectors
(tests/test_utils.py): the vowel skeleton of シークヮーサー is イーアーアー
and of シミュレーション is イウエーオン; the mora counts of シークヮーサー,
ヱヴァンゲリヲン and デュアルディスプレイ are 6, 7 and 8. -/
theorem C6_transliterator_pinned_vectors :
    katakana_to_vowels "シークヮーサー".toList = some ("イーアーアー".toList) ∧
    katakana_to_vowels "シミュレーション".toList = some ("イウエーオン".toList) ∧
    count_mora_in_katakana "シークヮーサー".toList = some 6 ∧
    count_mora_in_katakana "ヱヴァンゲリヲン".toList = some 7 ∧
    count_mora_in_katakana "デュアルディスプレイ".toList = some 8 := by
  refine ⟨?_, ?_, ?_, ?_, ?_⟩ <;> decide

instance : IsAntisymm Char (· ≤ ·) := ⟨fun _ _ h1 h2 => le_antisymm h1 h2⟩

instance (l : List Str) : IsAntisymm Char (fkeyOrder l) := by
  constructor
  rintro a b (h1 | ⟨e1, h1⟩) (h2 | ⟨e2, h2⟩)
  · exact absurd h1 (Nat.lt_asymm h2)
  · exact absurd h1 (by rw [e2]; exact Nat.lt_irrefl _)
  · exact absurd h2 (by rw [e1]; exact Nat.lt_irrefl _)
  · exact le_antisymm h1 h2

/-- A canonically sorted deduplicated list is determined by the underlying
set: permutations give equal canonical forms. -/
theorem canon_perm {a b : List Str} (h : a.Perm b) : canon a = canon b := by
  apply List.eq_of_perm_of_sorted (r := (· ≤ ·))
  · exact ((List.perm_insertionSort _ _).trans h.dedup).trans
      (List.perm_insertionSort _ _).symm
  · exact List.sorted_insertionSort _ _
  · exact List.sorted_insertionSort _ _

theorem strsByLen_perm {l1 l2 : List Str} (h : l1.Perm l2) :
    (strsByLen l1).Perm (strsByLen l2) :=
  ((List.perm_insertionSort _ _).trans h).trans (List.perm_insertionSort _ _).symm

theorem longPairs_perm {l1 l2 : List Str} (h : l1.Perm l2) :
    (longPairs l1).Perm (longPairs l2) :=
  List.Perm.filterMap _ (strsByLen_perm h)

theorem sset_perm {l1 l2 : List Str} (h : l1.Perm l2) (c : Char) :
    sset l1 c = sset l2 c :=
  canon_perm (List.Perm.filterMap _ (longPairs_perm h))

theorem fkeys_perm {l1 l2 : List Str} (h : l1.Perm l2) : fkeys l1 = fkeys l2 := by
  have hiff : ∀ c d, fkeyOrder l1 c d ↔ fkeyOrder l2 c d := by
    intro c d
    unfold fkeyOrder
    rw [sset_perm h c, sset_perm h d]
  apply List.eq_of_perm_of_sorted (r := fkeyOrder l1)
  · exact ((List.perm_insertionSort _ _).trans
      ((List.Perm.map _ (longPairs_perm h)).dedup)).trans
      (List.perm_insertionSort _ _).symm
  · exact List.sorted_insertionSort _ _
  · exact (List.sorted_insertionSort (fkeyOrder l2) _).imp
      (fun hab => (hiff _ _).mpr hab)

theorem classGo_perm {l1 l2 : List Str} (h : l1.Perm l2) :
    ∀ ks seen, classGo l1 ks seen = classGo l2 ks seen := by
  intro ks
  induction ks with
  | nil => intro seen; rfl
  | cons c rest ih =>
    intro seen
    rw [classGo, classGo, sset_perm h c, fkeys_perm h]
    by_cases hm : sset l2 c ∈ seen
    · rw [if_pos hm, if_pos hm, ih]
    · rw [if_neg hm, if_neg hm, ih]
      have he : (fun d => decide (d ≠ c) && decide (sset l1 d = sset l2 c)) =
          (fun d => decide (d ≠ c) && decide (sset l2 d = sset l2 c)) := by
        funext d
        rw [sset_perm h d]
      rw [he]

theorem classes_perm {l1 l2 : List Str} (h : l1.Perm l2) : classes l1 = classes l2 := by
  rw [classes, classes, fkeys_perm h, classGo_perm h]

theorem result2_perm {l1 l2 : List Str} (h : l1.Perm l2) : result2 l1 = result2 l2 := by
  rw [result2, result2, classes_perm h]

theorem singles_perm {l1 l2 : List Str} (h : l1.Perm l2) :
    (singles l1).Perm (singles l2) :=
  List.Perm.filter _ (strsByLen_perm h)

theorem result1raw_perm {l1 l2 : List Str} (h : l1.Perm l2) :
    result1raw l1 = result1raw l2 := by
  apply List.eq_of_perm_of_sorted (r := negLenLex)
  · exact ((List.perm_insertionSort _ _).trans
      (List.Perm.map _ (singles_perm h))).trans (List.perm_insertionSort _ _).symm
  · exact List.sorted_insertionSort _ _
  · exact List.sorted_insertionSort _ _

theorem result1_perm {l1 l2 : List Str} (h : l1.Perm l2) : result1 l1 = result1 l2 := by
  rw [result1, result1, result1raw_perm h]

/-- The compactor is a function of the input set: any two enumerations of the
same set (any two permutations of the input list) compile to the same
pattern source. -/
theorem either_perm {l1 l2 : List Str} (h : l1.Perm l2) : either l1 = either l2 := by
  rw [either, either, result2_perm h, result1_perm h]

/-- C4: determinism as a two-run property.  For the compactor: any two
enumerations of the same string set (any two permutations) compile to
byte-identical pattern source.  For the extractor: extraction is a pure
function of the trained model, so two runs on the same model produce the
identical vertex order, labels, edge list and probability list. -/
theorem C4_determinism :
    (∀ (l1 l2 : List Str), l1.Perm l2 → either l1 = either l2) ∧
    (∀ m : Model, extract m = extract m ∧ extractLabels m = extractLabels m) :=
  ⟨fun _ _ h => either_perm h, fun _ => ⟨rfl, rfl⟩⟩

/-- C4 witness: a concrete permuted pair, with the pinned vector set
{"abc","ad"} enumerated both ways. -/
theorem C4_witness :
    either ["abc".toList, "ad".toList] = either ["ad".toList, "abc".toList] :=
  C4_determinism.1 _ _ (by decide)

/-- C5 counterexample: for the input set {"0","|"} the two escaped length-1
fragments are "0" and "\\|"; plain ascending lexicographic order on the
escaped fragments would put "0" first (it is smaller: '0' is U+0030, '\\' is
U+005C), but the code sorts by (-len, lex) (utils.py line 78), so the longer
escaped fragment "\\|" comes first and the compiled class is "[\\|0]", not
"[0\\|]". -/
theorem C5_counterexample :
    either ["0".toList, "|".toList] = "[\\|0]".toList ∧
    result1raw ["0".toList, "|".toList] = ["\\|".toList, "0".toList] ∧
    ¬("\\|".toList ≤ "0".toList) := by
  refine ⟨by decide, by decide, by decide⟩

/-- C5 amended: when the input contains two or more length-1 strings, their
escaped forms are merged into a single character class appended as the last
fragment, whose members appear sorted by descending escaped length with ties
broken by ascending lexicographic order (the (-len, lex) key of utils.py line
78), not by plain lexicographic order. -/
theorem C5_amended_singles_class (l : List Str) (h : 2 ≤ (result1raw l).length) :
    (result1raw l).Perm ((singles l).map reEscape) ∧
    List.Sorted negLenLex (result1raw l) ∧
    either l =
      List.intercalate ['|'] (result2 l ++ ['[' :: (result1raw l).flatten ++ [']']]) := by
  refine ⟨List.perm_insertionSort _ _, List.sorted_insertionSort _ _, ?_⟩
  rw [either, result1, if_pos h]

/-- C5 witness: the amended statement instantiated at the set {"0","|"}. -/
theorem C5_witness :
    2 ≤ (result1raw ["0".toList, "|".toList]).length ∧
    ((result1raw ["0".toList, "|".toList]).Perm
        ((singles ["0".toList, "|".toList]).map reEscape) ∧
      List.Sorted negLenLex (result1raw ["0".toList, "|".toList]) ∧
      either ["0".toList, "|".toList] =
        List.intercalate ['|'] (result2 ["0".toList, "|".toList] ++
          ['[' :: (result1raw ["0".toList, "|".toList]).flatten ++ [']']])) :=
  ⟨by decide, C5_amended_singles_class _ (by decide)⟩

/-! C10: the vowel-skeleton conversion never lengthens its input. -/

/-- Substitution never lengthens the text when the replacement of any match
is at most one character and the empty match has no replacement: every step
either copies one character or consumes at least one character and emits at
most one. -/
theorem reSubF_length_le (P : List (List RAtom)) (f : Str → Option Str)
    (hf1 : ∀ m rep, f m = some rep → rep.length ≤ 1) (hf0 : f [] = none) :
    ∀ fuel t r, reSubF P f fuel t = some r → r.length ≤ t.length := by
  intro fuel
  induction fuel with
  | zero => intro t r h; simp [reSubF] at h
  | succ fuel ih =>
    intro t r h
    match t with
    | [] =>
      simp [reSubF] at h
      subst h
      simp
    | c :: rest =>
      rcases hm : matchPat P (c :: rest) with _ | k
      · rw [reSubF, hm] at h
        rcases hr : reSubF P f fuel rest with _ | t2
        · rw [hr] at h; simp at h
        · rw [hr] at h
          simp at h
          subst h
          have := ih rest t2 hr
          simp
          omega
      · match k with
        | 0 =>
          rw [reSubF, hm, hf0] at h
          simp only [] at h
          simp at h
        | k + 1 =>
          rw [reSubF, hm] at h
          simp only [] at h
          rcases hrep : f (List.take (k + 1) (c :: rest)) with _ | rep
          · rw [hrep] at h; simp at h
          · rw [hrep] at h
            rcases hr : reSubF P f fuel (List.drop k rest) with _ | t2
            · rw [hr] at h; simp at h
            · rw [hr] at h
              simp at h
              subst h
              have h1 := ih _ t2 hr
              have h2 := hf1 _ rep hrep
              have h3 : (List.drop k rest).length = rest.length - k :=
                List.length_drop k rest
              simp [List.length_append]
              omega

/-- Every replacement of the vowel table is a single vowel character. -/
theorem vowelRepl_short : ∀ m rep, vowelRepl m = some rep → rep.length ≤ 1 := by
  intro m rep h
  rw [vowelRepl] at h
  rcases hl : to_vowel_map2.lookup m with _ | a
  · rw [hl] at h; simp at h
  · rw [hl] at h
    simp at h
    subst h
    simp

/-- The empty string is not a key of the vowel table. -/
theorem vowelRepl_nil : vowelRepl [] = none := by decide

/-- C10: the vowel-skeleton conversion never lengthens its input: the output
of katakana_to_vowels has at most as many code points as the input (each
two-code-point rule emits one code point, the single-character table is
one-to-one on code points), and consequently count_mora_in_katakana is at
most the code-point length of the text. -/
theorem C10_skeleton_never_lengthens :
    (∀ t r, katakana_to_vowels t = some r → r.length ≤ t.length) ∧
    (∀ t k, count_mora_in_katakana t = some k → k ≤ t.length) := by
  have h1 : ∀ t r, katakana_to_vowels t = some r → r.length ≤ t.length := by
    intro t r h
    rw [katakana_to_vowels] at h
    rcases hp : toVowelPat with _ | P
    · rw [hp] at h; simp at h
    · rw [hp] at h
      simp only [] at h
      rcases hs : reSub P vowelRepl t with _ | u
      · rw [hs] at h; simp at h
      · rw [hs] at h
        simp at h
        subst h
        have := reSubF_length_le P vowelRepl vowelRepl_short vowelRepl_nil _ t u hs
        calc (translate1 u).length = u.length := List.length_map u _
        _ ≤ t.length := this
  refine ⟨h1, ?_⟩
  intro t k h
  rw [count_mora_in_katakana] at h
  rcases hv : katakana_to_vowels t with _ | r
  · rw [hv] at h; simp at h
  · rw [hv] at h
    simp only [] at h
    simp at h
    subst h
    calc countMoraChars r ≤ r.length := List.length_filter_le _ r
    _ ≤ t.length := h1 t r hv

/-- C10 witness: the conversion of a single katakana A. -/
theorem C10_witness :
    katakana_to_vowels "ア".toList = some ("ア".toList) ∧
    ("ア".toList).length ≤ ("ア".toList).length ∧
    count_mora_in_katakana "ア".toList = some 1 ∧ 1 ≤ ("ア".toList).length :=
  ⟨by decide,
    C10_skeleton_never_lengthens.1 ("ア".toList) ("ア".toList) (by decide),
    by decide,
    C10_skeleton_never_lengthens.2 ("ア".toList) 1 (by decide)⟩

/-! Soundness of the compactor (C2): every member of the input set is matched
with its full length.  First, generic facts about the small matching and
parsing functions. -/

theorem intercalate_cons2 (sep x y : Str) (zs : List Str) :
    List.intercalate sep (x :: y :: zs) = x ++ sep ++ List.intercalate sep (y :: zs) := by
  simp [List.intercalate, List.intersperse]

theorem intercalate_single (sep x : Str) : List.intercalate sep [x] = x := by
  simp [List.intercalate]

theorem startsWith_refl (t : Str) : startsWith t t = true := by
  induction t with
  | nil => rfl
  | cons c rest ih => simp [startsWith, ih]

theorem startsWith_length {u t : Str} (h : startsWith u t = true) :
    u.length ≤ t.length := by
  induction u generalizing t with
  | nil => simp
  | cons c rest ih =>
    match t with
    | [] => simp [startsWith] at h
    | d :: t2 =>
      simp [startsWith] at h
      have := ih h.2
      simp
      omega

theorem startsWith_eq_of_length {u t : Str} (h : startsWith u t = true)
    (hl : u.length = t.length) : u = t := by
  induction u generalizing t with
  | nil =>
    match t with
    | [] => rfl
    | d :: t2 => simp at hl
  | cons c rest ih =>
    match t with
    | [] => simp [startsWith] at h
    | d :: t2 =>
      simp [startsWith] at h
      simp at hl
      rw [h.1, ih h.2 hl]

theorem firstSome_append_left {α β : Type} (xs ys : List α) (f : α → Option β)
    (v : β) (hall : ∀ x ∈ xs, f x = none ∨ f x = some v)
    (hex : ∃ x ∈ xs, f x = some v) :
    firstSome (xs ++ ys) f = some v := by
  induction xs with
  | nil => obtain ⟨x, hx, _⟩ := hex; simp at hx
  | cons a l ih =>
    rcases hall a (by simp) with ha | ha
    · rw [List.cons_append, firstSome, ha]
      obtain ⟨x, hx, hfx⟩ := hex
      rcases List.mem_cons.mp hx with h1 | h1
      · rw [h1] at hfx; rw [hfx] at ha; exact absurd ha (by simp)
      · exact ih (fun x hx2 => hall x (List.mem_cons_of_mem _ hx2)) ⟨x, h1, hfx⟩
    · rw [List.cons_append, firstSome, ha]

theorem firstSome_append_none {α β : Type} (xs ys : List α) (f : α → Option β)
    (hall : ∀ x ∈ xs, f x = none) :
    firstSome (xs ++ ys) f = firstSome ys f := by
  induction xs with
  | nil => rfl
  | cons a l ih =>
    rw [List.cons_append, firstSome, hall a (by simp)]
    exact ih fun x hx => hall x (List.mem_cons_of_mem _ hx)

theorem escChar_ne_nil (c : Char) : escChar c ≠ [] := by
  rw [escChar]
  split <;> simp

theorem escChar_getLastD (c : Char) (d : Char) : (escChar c).getLastD d = c := by
  rw [escChar]
  split <;> simp

/-- Parsing back the rendered body of a character class yields its members:
every escaped character is either a non-special character, in particular
neither the closing bracket nor a backslash, or a backslash followed by the
character. -/
theorem parseClassBody_render (cs : List Char) (rest : Str) :
    parseClassBody (cs.flatMap escChar ++ ']' :: rest) = some (cs, rest) := by
  induction cs with
  | nil =>
    simp only [List.flatMap_nil, List.nil_append]
    rw [parseClassBody.eq_def]
    simp
  | cons c cs2 ih =>
    by_cases hc : c ∈ specialChars
    · simp only [List.flatMap_cons, escChar, if_pos hc, List.cons_append,
        List.append_assoc]
      rw [parseClassBody.eq_def]
      simp [ih]
    · have h1 : ¬c = ']' := fun he => hc (he ▸ by decide)
      have h2 : ¬c = '\\' := fun he => hc (he ▸ by decide)
      simp only [List.flatMap_cons, escChar, if_neg hc, List.cons_append,
        List.append_assoc]
      rw [parseClassBody.eq_def]
      simp [h1, h2, ih]

/-- Parsing back one rendered alternative stops exactly at the following
separator: every escaped character is either non-special, in particular not a
bar, a parenthesis or a backslash, or a backslash followed by the character. -/
theorem parseAltItem_render (u : Str) (c : Char) (rest : Str)
    (hc : c = '|' ∨ c = ')') :
    parseAltItem (reEscape u ++ c :: rest) = some (u, c :: rest) := by
  induction u with
  | nil =>
    rw [reEscape]
    simp only [List.flatMap_nil, List.nil_append]
    rw [parseAltItem.eq_def]
    simp [hc]
  | cons d u2 ih =>
    by_cases hd : d ∈ specialChars
    · rw [reEscape]
      simp only [List.flatMap_cons, escChar, if_pos hd, List.cons_append,
        List.append_assoc]
      rw [parseAltItem.eq_def]
      simp only []
      rw [reEscape] at ih
      simp [ih]
    · have h1 : ¬(d = '|' ∨ d = ')') := by
        rintro (he | he) <;> exact hd (he ▸ by decide)
      have h2 : ¬d = '\\' := fun he => hd (he ▸ by decide)
      rw [reEscape]
      simp only [List.flatMap_cons, escChar, if_neg hd, List.cons_append,
        List.append_assoc]
      rw [parseAltItem.eq_def]
      simp only []
      rw [reEscape] at ih
      simp [h1, h2, ih]

/-- The parsed atom corresponding to an emitted piece. -/
def astPiece : Piece → RAtom
  | .pchr c => .chr c
  | .pcls cs => .cls cs
  | .palts ss => .alts ss

/-- Pieces the compactor can emit: alternation groups are never empty. -/
def goodPiece : Piece → Prop
  | .palts ss => ss ≠ []
  | _ => True

theorem renderPiece_ne_nil (p : Piece) : renderPiece p ≠ [] := by
  match p with
  | .pchr c => exact escChar_ne_nil c
  | .pcls cs => simp [renderPiece]
  | .palts ss => simp [renderPiece]

theorem length_le_renderPieces (ps : List Piece) :
    ps.length ≤ (renderPieces ps).length := by
  induction ps with
  | nil => simp [renderPieces]
  | cons p ps2 ih =>
    have h1 : renderPieces (p :: ps2) = renderPiece p ++ renderPieces ps2 := by
      simp [renderPieces]
    rw [h1]
    have h2 : 1 ≤ (renderPiece p).length := by
      rcases hr : renderPiece p with _ | ⟨c, cs⟩
      · exact absurd hr (renderPiece_ne_nil p)
      · simp
    simp only [List.length_cons, List.length_append]
    omega

theorem intercalate_length_ge (ss : List Str) :
    ss.length ≤ (List.intercalate ['|'] (ss.map reEscape)).length + 1 := by
  induction ss with
  | nil => simp
  | cons u ss2 ih =>
    match ss2 with
    | [] => simp [intercalate_single]
    | v :: ss3 =>
      rw [List.map_cons, List.map_cons, intercalate_cons2]
      rw [List.map_cons] at ih
      simp only [List.length_cons, List.length_append] at *
      omega

/-- Parsing back a rendered group body: the alternatives are recovered in
order, stopping at the closing parenthesis. -/
theorem parseAltsF_render (ss : List Str) (hne : ss ≠ []) :
    ∀ fuel rest, ss.length + 1 ≤ fuel →
      parseAltsF fuel (List.intercalate ['|'] (ss.map reEscape) ++ ')' :: rest) =
        some (ss, rest) := by
  induction ss with
  | nil => exact absurd rfl hne
  | cons u ss2 ih =>
    intro fuel rest hf
    cases fuel with
    | zero => simp at hf
    | succ fu =>
      match ss2 with
      | [] =>
        rw [List.map_cons, List.map_nil, intercalate_single]
        rw [parseAltsF]
        rw [parseAltItem_render u ')' rest (Or.inr rfl)]
        simp only []
      | v :: ss3 =>
        rw [List.map_cons, List.map_cons, intercalate_cons2]
        rw [parseAltsF]
        have harr : (reEscape u ++ ['|'] ++
            List.intercalate ['|'] (reEscape v :: ss3.map reEscape)) ++ ')' :: rest =
            reEscape u ++ '|' ::
              (List.intercalate ['|'] (reEscape v :: ss3.map reEscape) ++ ')' :: rest) := by
          simp
        rw [harr, parseAltItem_render u '|' _ (Or.inl rfl)]
        have hf2 : (v :: ss3).length + 1 ≤ fu := by
          simp only [List.length_cons] at hf ⊢
          omega
        have hih := ih (by simp) fu rest hf2
        rw [List.map_cons] at hih
        simp only []
        rw [hih]

theorem parseFragF_chr (fuel : Nat) (c : Char) (rest : Str)
    (h1 : ¬c = '|') (h2 : ¬c = '[') (h3 : ¬c = '\\') (h4 : ¬c = '(') :
    parseFragF (fuel + 1) (c :: rest) =
      match parseFragF fuel rest with
      | none => none
      | some (as, r2) => some (.chr c :: as, r2) := by
  rw [parseFragF.eq_def]
  simp only []
  split <;> simp_all

/-- Parsing back a rendered fragment yields the atoms of its pieces and stops
exactly at the trailing separator (nothing, or a top-level bar). -/
theorem parseFragF_render :
    ∀ (ps : List Piece) (fuel : Nat) (rest : Str),
      ps.length + 1 ≤ fuel →
      (rest = [] ∨ ∃ rs, rest = '|' :: rs) →
      (∀ p ∈ ps, goodPiece p) →
      parseFragF fuel (renderPieces ps ++ rest) = some (ps.map astPiece, rest) := by
  intro ps
  induction ps with
  | nil =>
    intro fuel rest hf hrest hgood
    cases fuel with
    | zero => simp at hf
    | succ fu =>
      rcases hrest with h | ⟨rs, h⟩ <;> subst h
      · simp only [renderPieces, List.flatMap_nil, List.nil_append, List.map_nil]
        rw [parseFragF.eq_def]
      · simp only [renderPieces, List.flatMap_nil, List.nil_append, List.map_nil]
        rw [parseFragF.eq_def]
        rfl
  | cons p ps2 ih =>
    intro fuel rest hf hrest hgood
    cases fuel with
    | zero => simp at hf
    | succ fu =>
      have hf2 : ps2.length + 1 ≤ fu := by
        simp only [List.length_cons] at hf
        omega
      have hgood2 : ∀ q ∈ ps2, goodPiece q :=
        fun q hq => hgood q (List.mem_cons_of_mem _ hq)
      have hih := ih fu rest hf2 hrest hgood2
      match p with
      | .pchr c =>
        have hrp : renderPieces (Piece.pchr c :: ps2) ++ rest =
            escChar c ++ (renderPieces ps2 ++ rest) := by
          simp [renderPieces, renderPiece]
        rw [hrp]
        by_cases hc : c ∈ specialChars
        · rw [escChar, if_pos hc]
          simp only [List.cons_append, List.nil_append]
          rw [parseFragF.eq_def]
          simp only []
          rw [hih]
          rfl
        · have h1 : ¬c = '|' := fun he => hc (he ▸ by decide)
          have h2 : ¬c = '[' := fun he => hc (he ▸ by decide)
          have h3 : ¬c = '\\' := fun he => hc (he ▸ by decide)
          have h4 : ¬c = '(' := fun he => hc (he ▸ by decide)
          rw [escChar, if_neg hc]
          simp only [List.cons_append, List.nil_append]
          rw [parseFragF_chr fu c _ h1 h2 h3 h4, hih]
          rfl
      | .pcls cs =>
        have hrp : renderPieces (Piece.pcls cs :: ps2) ++ rest =
            '[' :: (cs.flatMap escChar ++ ']' :: (renderPieces ps2 ++ rest)) := by
          simp [renderPieces, renderPiece]
        rw [hrp]
        rw [parseFragF.eq_def]
        simp only []
        rw [parseClassBody_render]
        simp only []
        rw [hih]
        rfl
      | .palts ss =>
        have hss : ss ≠ [] := hgood (Piece.palts ss) (by simp)
        have hrp : renderPieces (Piece.palts ss :: ps2) ++ rest =
            '(' :: '?' :: ':' ::
              (List.intercalate ['|'] (ss.map reEscape) ++
                ')' :: (renderPieces ps2 ++ rest)) := by
          simp [renderPieces, renderPiece]
        rw [hrp]
        rw [parseFragF.eq_def]
        simp only []
        have halts : parseAlts
            (List.intercalate ['|'] (ss.map reEscape) ++
              ')' :: (renderPieces ps2 ++ rest)) =
            some (ss, renderPieces ps2 ++ rest) := by
          rw [parseAlts]
          apply parseAltsF_render ss hss
          have := intercalate_length_ge ss
          simp only [List.length_append, List.length_cons]
          omega
        rw [halts]
        simp only []
        rw [hih]
        rfl

/-- Parsing back a rendered alternation of fragments yields the fragments. -/
theorem parsePatF_render :
    ∀ (fss : List (List Piece)) (fuel : Nat), fss ≠ [] →
      fss.length + 1 ≤ fuel →
      (∀ f ∈ fss, ∀ p ∈ f, goodPiece p) →
      parsePatF fuel (List.intercalate ['|'] (fss.map renderPieces)) =
        some (fss.map (List.map astPiece)) := by
  intro fss
  induction fss with
  | nil => intro fuel h; exact absurd rfl h
  | cons f fss2 ih =>
    intro fuel hne hf hgood
    cases fuel with
    | zero => simp at hf
    | succ fu =>
      match fss2 with
      | [] =>
        rw [List.map_cons, List.map_nil, intercalate_single]
        rw [parsePatF]
        have hfr : parseFrag (renderPieces f) = some (f.map astPiece, []) := by
          rw [parseFrag]
          have h0 : renderPieces f ++ [] = renderPieces f := by simp
          rw [← h0]
          apply parseFragF_render f _ [] _ (Or.inl rfl) (hgood f (by simp))
          have := length_le_renderPieces f
          simp only [List.length_append, List.length_nil]
          omega
        rw [hfr]
        rfl
      | g :: fss3 =>
        rw [List.map_cons, List.map_cons, intercalate_cons2]
        rw [parsePatF]
        have harr : (renderPieces f ++ ['|'] ++
            List.intercalate ['|'] (renderPieces g :: fss3.map renderPieces)) =
            renderPieces f ++ '|' ::
              List.intercalate ['|'] (renderPieces g :: fss3.map renderPieces) := by
          simp
        rw [harr]
        have hfr : parseFrag (renderPieces f ++ '|' ::
            List.intercalate ['|'] (renderPieces g :: fss3.map renderPieces)) =
            some (f.map astPiece, '|' ::
              List.intercalate ['|'] (renderPieces g :: fss3.map renderPieces)) := by
          rw [parseFrag]
          apply parseFragF_render f _ _ _ (Or.inr ⟨_, rfl⟩) (hgood f (by simp))
          have := length_le_renderPieces f
          simp only [List.length_append, List.length_cons]
          omega
        rw [hfr]
        have hih := ih fu (by simp) (by simp only [List.length_cons] at hf ⊢; omega)
          (fun q hq => hgood q (List.mem_cons_of_mem _ hq))
        rw [List.map_cons] at hih
        simp only []
        rw [hih]
        rfl

/-! The fragments of the compiled pattern, as piece lists. -/

/-- The sort key of utils.py line 70 pulled back along rendering. -/
def keyOrder {α : Type} (f : α → Str) (a b : α) : Prop := negLenLex (f a) (f b)

instance {α : Type} (f : α → Str) : DecidableRel (keyOrder f) :=
  fun a b => (inferInstance : Decidable (negLenLex (f a) (f b)))

instance {α : Type} (f : α → Str) : IsTotal α (keyOrder f) :=
  ⟨fun a b => total_of negLenLex (f a) (f b)⟩

instance {α : Type} (f : α → Str) : IsTrans α (keyOrder f) :=
  ⟨fun _ _ _ h1 h2 => IsTrans.trans (r := negLenLex) _ _ _ h1 h2⟩

/-- Sorting rendered strings is rendering the list sorted by the pulled-back
key. -/
theorem insertionSort_map_key {α : Type} (f : α → Str) (xs : List α) :
    List.insertionSort negLenLex (xs.map f) =
      (List.insertionSort (keyOrder f) xs).map f := by
  apply List.eq_of_perm_of_sorted (r := negLenLex)
  · exact ((List.perm_insertionSort _ _).trans
      (List.Perm.map f (List.perm_insertionSort _ _).symm))
  · exact List.sorted_insertionSort _ _
  · exact List.pairwise_map.mpr (List.sorted_insertionSort (keyOrder f) xs)

/-- The class fragments in the order of result2 (utils.py line 70). -/
def sortedClassFrags (l : List Str) : List (List Piece) :=
  List.insertionSort (keyOrder renderPieces) ((classes l).map classPieces)

theorem result2_eq_render (l : List Str) :
    result2 l = (sortedClassFrags l).map renderPieces := by
  rw [result2, sortedClassFrags, ← insertionSort_map_key]
  rw [List.map_map]
  rfl

/-- The length-1 fragment list as pieces: one merged class for two or more
singles (utils.py lines 79-80), else the escaped singles themselves. -/
def singlesFrags (l : List Str) : List (List Piece) :=
  if 2 ≤ (result1raw l).length then
    [[Piece.pcls ((result1raw l).map fun e => e.getLastD default)]]
  else (result1raw l).map fun e => [Piece.pchr (e.getLastD default)]

theorem mem_singles {l u} : u ∈ singles l ↔ u ∈ l ∧ u.length = 1 := by
  rw [singles]
  rw [List.mem_filter]
  constructor
  · rintro ⟨h1, h2⟩
    refine ⟨(List.Perm.mem_iff (List.perm_insertionSort _ _)).mp h1, ?_⟩
    simpa using h2
  · rintro ⟨h1, h2⟩
    refine ⟨(List.Perm.mem_iff (List.perm_insertionSort _ _)).mpr h1, ?_⟩
    simpa using h2

theorem mem_result1raw {l e} :
    e ∈ result1raw l ↔ ∃ u, u ∈ singles l ∧ e = reEscape u := by
  rw [result1raw]
  rw [List.Perm.mem_iff (List.perm_insertionSort _ _)]
  rw [List.mem_map]
  constructor
  · rintro ⟨u, h1, h2⟩; exact ⟨u, h1, h2.symm⟩
  · rintro ⟨u, h1, h2⟩; exact ⟨u, h1, h2.symm⟩

theorem result1raw_escChar {l e} (h : e ∈ result1raw l) :
    e = escChar (e.getLastD default) ∧ [e.getLastD default] ∈ singles l := by
  obtain ⟨u, hu, he⟩ := mem_result1raw.mp h
  have hlen := (mem_singles.mp hu).2
  match u, hlen with
  | [d], _ =>
    have he2 : e = escChar d := by rw [he, reEscape]; simp
    rw [he2, escChar_getLastD]
    exact ⟨rfl, hu⟩

theorem flatten_eq_flatMap_escChar (es : List Str)
    (h : ∀ e ∈ es, escChar (e.getLastD default) = e) :
    es.flatten = (es.map fun e => e.getLastD default).flatMap escChar := by
  induction es with
  | nil => simp
  | cons e es2 ih =>
    simp only [List.flatten_cons, List.map_cons, List.flatMap_cons]
    rw [h e (by simp), ih (fun x hx => h x (by simp [hx]))]

theorem result1_eq_render (l : List Str) :
    result1 l = (singlesFrags l).map renderPieces := by
  rw [result1, singlesFrags]
  by_cases h2 : 2 ≤ (result1raw l).length
  · rw [if_pos h2, if_pos h2]
    simp only [List.map_cons, List.map_nil, renderPieces, renderPiece,
      List.flatMap_cons, List.flatMap_nil, List.append_nil]
    rw [flatten_eq_flatMap_escChar (result1raw l)
      (fun e he => ((result1raw_escChar he).1).symm)]
  · rw [if_neg h2, if_neg h2]
    rw [List.map_map]
    have : ∀ e ∈ result1raw l,
        (renderPieces ∘ fun e => [Piece.pchr (e.getLastD default)]) e = e := by
      intro e he
      simp only [Function.comp, renderPieces, List.flatMap_cons, List.flatMap_nil,
        List.append_nil, renderPiece]
      exact ((result1raw_escChar he).1).symm
    calc result1raw l
        = (result1raw l).map id := by simp
      _ = _ := (List.map_congr_left this).symm

/-- The fragments of the compiled pattern: the sorted class fragments, then
the length-1 fragment (utils.py line 82, result = result2 + result1). -/
def fragsList (l : List Str) : List (List Piece) :=
  sortedClassFrags l ++ singlesFrags l

theorem either_eq_render (l : List Str) :
    either l = List.intercalate ['|'] ((fragsList l).map renderPieces) := by
  rw [either, fragsList, List.map_append, result2_eq_render, result1_eq_render]

/-! Membership structure of the grouping phase. -/

theorem mem_longPairs {l : List Str} {c : Char} {t : Str} :
    (c, t) ∈ longPairs l ↔ (c :: t) ∈ l ∧ t ≠ [] := by
  rw [longPairs, List.mem_filterMap]
  constructor
  · rintro ⟨s, hs, hf⟩
    match s with
    | [] => simp at hf
    | [a] => simp at hf
    | a :: b :: t2 =>
      simp only [Option.some.injEq, Prod.mk.injEq] at hf
      obtain ⟨h1, h2⟩ := hf
      subst h1
      subst h2
      exact ⟨(List.Perm.mem_iff (List.perm_insertionSort _ _)).mp hs, by simp⟩
  · rintro ⟨hmem, hne⟩
    refine ⟨c :: t, (List.Perm.mem_iff (List.perm_insertionSort _ _)).mpr hmem, ?_⟩
    match t, hne with
    | d :: t2, _ => simp

theorem mem_sset {l : List Str} {c : Char} {t : Str} :
    t ∈ sset l c ↔ (c, t) ∈ longPairs l := by
  rw [sset, canon]
  rw [List.Perm.mem_iff (List.perm_insertionSort _ _), List.mem_dedup,
    List.mem_filterMap]
  constructor
  · rintro ⟨⟨a, b⟩, hp, hf⟩
    by_cases he : a = c
    · subst he
      rw [if_pos rfl] at hf
      simp only [Option.some.injEq] at hf
      subst hf
      exact hp
    · rw [if_neg he] at hf
      simp at hf
  · intro hp
    exact ⟨(c, t), hp, by simp⟩

theorem mem_fkeys {l : List Str} {c : Char} :
    c ∈ fkeys l ↔ ∃ t, (c, t) ∈ longPairs l := by
  rw [fkeys, List.Perm.mem_iff (List.perm_insertionSort _ _), List.mem_dedup,
    List.mem_map]
  constructor
  · rintro ⟨⟨a, b⟩, hp, he⟩
    simp only at he
    subst he
    exact ⟨b, hp⟩
  · rintro ⟨t, ht⟩
    exact ⟨(c, t), ht, rfl⟩

theorem classGo_shape {l : List Str} :
    ∀ ks seen cl, cl ∈ classGo l ks seen → ∃ k, k ∈ ks ∧
      cl = (k :: (fkeys l).filter
        (fun d => decide (d ≠ k) && decide (sset l d = sset l k)), sset l k) := by
  intro ks
  induction ks with
  | nil => intro seen cl h; simp [classGo] at h
  | cons k rest ih =>
    intro seen cl h
    rw [classGo] at h
    by_cases hs : sset l k ∈ seen
    · rw [if_pos hs] at h
      obtain ⟨k2, hk2, he⟩ := ih _ _ h
      exact ⟨k2, List.mem_cons_of_mem _ hk2, he⟩
    · rw [if_neg hs] at h
      rcases List.mem_cons.mp h with he | h2
      · exact ⟨k, by simp, he⟩
      · obtain ⟨k2, hk2, he⟩ := ih _ _ h2
        exact ⟨k2, List.mem_cons_of_mem _ hk2, he⟩

theorem classes_shape {l : List Str} {cl : List Char × List Str}
    (h : cl ∈ classes l) : ∃ k, k ∈ fkeys l ∧
      cl = (k :: (fkeys l).filter
        (fun d => decide (d ≠ k) && decide (sset l d = sset l k)), sset l k) :=
  classGo_shape (fkeys l) [] cl h

/-- Every character of a class has the class's shared suffix set. -/
theorem class_member_sset {l : List Str} {cl : List Char × List Str} {c : Char}
    (hcl : cl ∈ classes l) (hc : c ∈ cl.1) :
    c ∈ fkeys l ∧ sset l c = cl.2 := by
  obtain ⟨k, hk, he⟩ := classes_shape hcl
  subst he
  simp only at hc ⊢
  rcases List.mem_cons.mp hc with he | h2
  · subst he
    exact ⟨hk, rfl⟩
  · rw [List.mem_filter] at h2
    obtain ⟨h3, h4⟩ := h2
    simp only [Bool.and_eq_true, decide_eq_true_eq] at h4
    exact ⟨h3, h4.2⟩

theorem classGo_cover {l : List Str} :
    ∀ ks seen, (∀ c, c ∈ ks → c ∈ fkeys l) →
      ∀ c ∈ ks, sset l c ∉ seen →
        ∃ cl ∈ classGo l ks seen, c ∈ cl.1 ∧ cl.2 = sset l c := by
  intro ks
  induction ks with
  | nil => intro seen hsub c hc; simp at hc
  | cons k rest ih =>
    intro seen hsub c hc hseen
    rw [classGo]
    by_cases hs : sset l k ∈ seen
    · rw [if_pos hs]
      rcases List.mem_cons.mp hc with he | h2
      · subst he; exact absurd hs hseen
      · exact ih _ (fun d hd => hsub d (List.mem_cons_of_mem _ hd)) c h2 hseen
    · rw [if_neg hs]
      by_cases heq : sset l c = sset l k
      · refine ⟨(k :: (fkeys l).filter
            (fun d => decide (d ≠ k) && decide (sset l d = sset l k)), sset l k),
          List.mem_cons_self _ _, ?_, by simp [heq]⟩
        by_cases hck : c = k
        · simp [hck]
        · simp only [List.mem_cons]
          right
          rw [List.mem_filter]
          refine ⟨hsub c hc, ?_⟩
          simp [hck, heq]
      · rcases List.mem_cons.mp hc with he | h2
        · subst he; exact absurd rfl heq
        · have hseen2 : sset l c ∉ sset l k :: seen := by
            simp only [List.mem_cons]
            rintro (h | h)
            · exact heq h
            · exact hseen h
          obtain ⟨cl, hcl, hm⟩ :=
            ih _ (fun d hd => hsub d (List.mem_cons_of_mem _ hd)) c h2 hseen2
          exact ⟨cl, List.mem_cons_of_mem _ hcl, hm⟩

/-- Every first character of a grouped string lies in exactly the class built
for its suffix set. -/
theorem classes_cover {l : List Str} {c : Char} (hc : c ∈ fkeys l) :
    ∃ cl ∈ classes l, c ∈ cl.1 ∧ cl.2 = sset l c :=
  classGo_cover (fkeys l) [] (fun _ h => h) c hc (by simp)

/-! Matching behavior of the emitted fragments. -/

theorem matchSeq_lit (t : Str) : ∀ u, matchSeq (t.map RAtom.chr) (t ++ u) = some u := by
  induction t with
  | nil => intro u; simp [matchSeq]
  | cons c t2 ih =>
    intro u
    simp only [List.map_cons, List.cons_append]
    rw [matchSeq]
    rw [if_pos rfl]
    exact ih u

theorem matchSeq_det_nil {a : RAtom} {as : List RAtom}
    (h : (∃ c, a = .chr c) ∨ (∃ cs, a = .cls cs) ∨
      (∃ ss, a = .alts ss ∧ ∀ u ∈ ss, u ≠ [])) :
    matchSeq (a :: as) [] = none := by
  rcases h with ⟨c, he⟩ | ⟨cs, he⟩ | ⟨ss, he, hne⟩
  · subst he; rfl
  · subst he; rfl
  · subst he
    rw [matchSeq]
    induction ss with
    | nil => rfl
    | cons u us ih =>
      rw [firstSome]
      have hu : startsWith u [] = false := by
        match u, hne u (by simp) with
        | c :: u2, _ => rfl
      rw [hu]
      simp only [Bool.false_eq_true, if_false]
      exact ih fun v hv => hne v (by simp [hv])

theorem firstSome_sorted_prefix (ss : List Str) (t : Str)
    (hs : List.Pairwise negLenLex ss) (hm : t ∈ ss) :
    firstSome ss
      (fun u => if startsWith u t = true then some (t.drop u.length) else none) =
      some [] := by
  induction ss with
  | nil => simp at hm
  | cons u us ih =>
    rw [firstSome]
    by_cases hp : startsWith u t = true
    · have hu : u = t := by
        rcases List.mem_cons.mp hm with he | h2
        · exact he.symm
        · have hlt := (List.pairwise_cons.mp hs).1 t h2
          have hle := startsWith_length hp
          rcases hlt with h3 | ⟨h3, h4⟩
          · omega
          · exact startsWith_eq_of_length hp h3
      subst hu
      rw [if_pos hp, List.drop_length]
    · simp only [hp, Bool.false_eq_true, if_false]
      have ht : t ∈ us := by
        rcases List.mem_cons.mp hm with he | h2
        · subst he; exact absurd (startsWith_refl t) hp
        · exact h2
      exact ih (List.pairwise_cons.mp hs).2 ht

theorem matchSeq_alts_sorted (ss : List Str) (t : Str)
    (hm : t ∈ ss) :
    matchSeq [RAtom.alts (List.insertionSort negLenLex ss)] t = some [] := by
  rw [matchSeq]
  have hm2 : t ∈ List.insertionSort negLenLex ss :=
    (List.Perm.mem_iff (List.perm_insertionSort _ _)).mpr hm
  have hs : List.Pairwise negLenLex (List.insertionSort negLenLex ss) :=
    List.sorted_insertionSort _ _
  have hv := firstSome_sorted_prefix (List.insertionSort negLenLex ss) t hs hm2
  have heq : (fun (s : Str) =>
      if startsWith s t = true then matchSeq [] (t.drop s.length) else none) =
      (fun (s : Str) =>
        if startsWith s t = true then some (t.drop s.length) else none) := by
    funext u
    by_cases hp : startsWith u t = true
    · simp [hp, matchSeq]
    · simp [hp]
  rw [heq]
  exact hv

/-- The suffix set of a class is non-empty and consists of non-empty
strings. -/
theorem class_sset_facts {l : List Str} {cl : List Char × List Str}
    (hcl : cl ∈ classes l) :
    cl.2 ≠ [] ∧ ∀ t ∈ cl.2, t ≠ [] := by
  obtain ⟨k, hk, he⟩ := classes_shape hcl
  subst he
  simp only []
  constructor
  · obtain ⟨t, ht⟩ := mem_fkeys.mp hk
    have := mem_sset.mpr ht
    intro hnil
    rw [hnil] at this
    simp at this
  · intro t ht
    exact (mem_longPairs.mp (mem_sset.mp ht)).2

/-- The first piece of a class fragment: a class of the member characters, or
the lone character. -/
theorem classPieces_split {l : List Str} {cl : List Char × List Str}
    (hcl : cl ∈ classes l) :
    (2 ≤ cl.1.length ∧
      classPieces cl =
        Piece.pcls (List.insertionSort (· ≤ ·) cl.1) :: p2Pieces cl.2) ∨
    (∃ k, cl.1 = [k] ∧ classPieces cl = Piece.pchr k :: p2Pieces cl.2) := by
  obtain ⟨k, hk, he⟩ := classes_shape hcl
  by_cases h2 : 2 ≤ cl.1.length
  · left
    refine ⟨h2, ?_⟩
    rw [classPieces, if_pos h2]
    rfl
  · right
    have hshape : ∃ k2, cl.1 = [k2] := by
      rw [he]
      simp only []
      rw [he] at h2
      simp only [List.length_cons, Nat.not_le] at h2
      have h0 : (List.filter (fun d => decide (d ≠ k) &&
          decide (sset l d = sset l k)) (fkeys l)).length = 0 := by omega
      rw [List.length_eq_zero] at h0
      rw [h0]
      exact ⟨k, rfl⟩
    obtain ⟨k2, hk2⟩ := hshape
    refine ⟨k2, hk2, ?_⟩
    rw [classPieces, if_neg h2, hk2]
    rfl

/-- The suffix piece consumes exactly a member suffix. -/
theorem p2Pieces_match {l : List Str} {cl : List Char × List Str}
    (hcl : cl ∈ classes l) {t : Str} (ht : t ∈ cl.2) :
    matchSeq ((p2Pieces cl.2).map astPiece) t = some [] := by
  have hfacts := class_sset_facts hcl
  rw [p2Pieces]
  by_cases h2 : 2 ≤ cl.2.length
  · rw [if_pos h2]
    by_cases hlong : cl.2.any (fun s => decide (1 < s.length))
    · rw [if_pos hlong]
      simp only [List.map_cons, List.map_nil, astPiece]
      exact matchSeq_alts_sorted cl.2 t ht
    · rw [if_neg hlong]
      have hall : ∀ u ∈ cl.2, u.length = 1 := by
        intro u hu
        have h3 : ¬1 < u.length := by
          intro hgt
          rw [List.any_eq_true] at hlong
          exact hlong ⟨u, hu, by simpa using hgt⟩
        have h4 : u ≠ [] := hfacts.2 u hu
        have h5 : u.length ≠ 0 := fun h0 => h4 (List.eq_nil_of_length_eq_zero h0)
        omega
      have ht1 := hall t ht
      match t, ht1 with
      | [d], _ =>
        simp only [List.map_cons, List.map_nil, astPiece]
        rw [matchSeq]
        have hd : d ∈ (List.insertionSort (· ≤ ·) cl.2).map
            (fun s => s.headD default) :=
          List.mem_map.mpr
            ⟨[d], (List.Perm.mem_iff (List.perm_insertionSort _ _)).mpr ht, rfl⟩
        rw [if_pos hd]
        rfl
  · rw [if_neg h2]
    have h1 : cl.2.length = 1 := by
      have h4 : cl.2.length ≠ 0 :=
        fun h0 => hfacts.1 (List.eq_nil_of_length_eq_zero h0)
      omega
    obtain ⟨t0, he⟩ := List.length_eq_one.mp h1
    rw [he]
    rw [he] at ht
    have : t = t0 := by simpa using ht
    subst this
    simp only [List.headD_cons]
    have h0 : t ++ ([] : Str) = t := by simp
    calc matchSeq ((t.map Piece.pchr).map astPiece) t
        = matchSeq (t.map RAtom.chr) (t ++ []) := by rw [List.map_map, h0]; rfl
      _ = some [] := matchSeq_lit t []

/-- The suffix piece never matches the empty text. -/
theorem p2Pieces_nil_input {l : List Str} {cl : List Char × List Str}
    (hcl : cl ∈ classes l) :
    matchSeq ((p2Pieces cl.2).map astPiece) [] = none := by
  have hfacts := class_sset_facts hcl
  rw [p2Pieces]
  by_cases h2 : 2 ≤ cl.2.length
  · rw [if_pos h2]
    by_cases hlong : cl.2.any (fun s => decide (1 < s.length))
    · rw [if_pos hlong]
      simp only [List.map_cons, List.map_nil, astPiece]
      apply matchSeq_det_nil
      refine Or.inr (Or.inr ⟨_, rfl, ?_⟩)
      intro u hu
      exact hfacts.2 u ((List.Perm.mem_iff (List.perm_insertionSort _ _)).mp hu)
    · rw [if_neg hlong]
      simp only [List.map_cons, List.map_nil, astPiece]
      exact matchSeq_det_nil (Or.inr (Or.inl ⟨_, rfl⟩))
  · rw [if_neg h2]
    have h1 : cl.2.length = 1 := by
      have h4 : cl.2.length ≠ 0 :=
        fun h0 => hfacts.1 (List.eq_nil_of_length_eq_zero h0)
      omega
    obtain ⟨t0, he⟩ := List.length_eq_one.mp h1
    rw [he]
    simp only [List.headD_cons]
    have ht0 : t0 ≠ [] := by
      apply hfacts.2
      rw [he]
      simp
    match t0, ht0 with
    | d :: t1, _ =>
      simp only [List.map_cons, astPiece]
      exact matchSeq_det_nil (Or.inl ⟨d, rfl⟩)

/-- A class fragment consumes a grouped member string completely. -/
theorem classFrag_match {l : List Str} {cl : List Char × List Str}
    (hcl : cl ∈ classes l) {c : Char} {t : Str}
    (hc : c ∈ cl.1) (ht : t ∈ cl.2) :
    matchSeq ((classPieces cl).map astPiece) (c :: t) = some [] := by
  rcases classPieces_split hcl with ⟨h2, hform⟩ | ⟨k, hk1, hform⟩
  · rw [hform]
    simp only [List.map_cons, astPiece]
    rw [matchSeq]
    have hc2 : c ∈ List.insertionSort (· ≤ ·) cl.1 :=
      (List.Perm.mem_iff (List.perm_insertionSort _ _)).mpr hc
    rw [if_pos hc2]
    exact p2Pieces_match hcl ht
  · rw [hform]
    simp only [List.map_cons, astPiece]
    have hck : c = k := by
      rw [hk1] at hc
      simpa using hc
    rw [matchSeq, if_pos hck]
    exact p2Pieces_match hcl ht

/-- A class fragment fails on any string whose first character is not in the
class. -/
theorem classFrag_fail {l : List Str} {cl : List Char × List Str}
    (hcl : cl ∈ classes l) {c : Char} (hc : c ∉ cl.1) (t : Str) :
    matchSeq ((classPieces cl).map astPiece) (c :: t) = none := by
  rcases classPieces_split hcl with ⟨h2, hform⟩ | ⟨k, hk1, hform⟩
  · rw [hform]
    simp only [List.map_cons, astPiece]
    rw [matchSeq]
    have hc2 : c ∉ List.insertionSort (· ≤ ·) cl.1 :=
      fun hmem => hc ((List.Perm.mem_iff (List.perm_insertionSort _ _)).mp hmem)
    rw [if_neg hc2]
  · rw [hform]
    simp only [List.map_cons, astPiece]
    have hck : ¬c = k := by
      intro he
      rw [hk1] at hc
      simp [he] at hc
    rw [matchSeq, if_neg hck]

/-- A class fragment never matches a one-character string: its suffix piece
needs at least one more character. -/
theorem classFrag_single {l : List Str} {cl : List Char × List Str}
    (hcl : cl ∈ classes l) (c : Char) :
    matchSeq ((classPieces cl).map astPiece) [c] = none := by
  by_cases hc : c ∈ cl.1
  · rcases classPieces_split hcl with ⟨h2, hform⟩ | ⟨k, hk1, hform⟩
    · rw [hform]
      simp only [List.map_cons, astPiece]
      rw [matchSeq]
      by_cases hc2 : c ∈ List.insertionSort (· ≤ ·) cl.1
      · rw [if_pos hc2]
        exact p2Pieces_nil_input hcl
      · rw [if_neg hc2]
    · rw [hform]
      simp only [List.map_cons, astPiece]
      by_cases hck : c = k
      · rw [matchSeq, if_pos hck]
        exact p2Pieces_nil_input hcl
      · rw [matchSeq, if_neg hck]
  · exact classFrag_fail hcl hc []

/-! Assembly of the soundness theorem. -/

theorem classPieces_good {l : List Str} {cl : List Char × List Str}
    (hcl : cl ∈ classes l) : ∀ p ∈ classPieces cl, goodPiece p := by
  intro p hp
  rw [classPieces] at hp
  rcases List.mem_append.mp hp with h1 | h2
  · split at h1 <;> simp only [List.mem_singleton] at h1 <;> subst h1 <;> trivial
  · rw [p2Pieces] at h2
    split at h2
    · split at h2
      · simp only [List.mem_singleton] at h2
        subst h2
        show List.insertionSort negLenLex cl.2 ≠ []
        intro h0
        have hlen := List.Perm.length_eq (List.perm_insertionSort negLenLex cl.2)
        rw [h0] at hlen
        have := (class_sset_facts hcl).1
        rcases hc2 : cl.2 with _ | ⟨u, us⟩
        · exact this hc2
        · rw [hc2] at hlen; simp at hlen
      · simp only [List.mem_singleton] at h2
        subst h2
        trivial
    · obtain ⟨d, hd, he⟩ := List.mem_map.mp h2
      subst he
      trivial

theorem singlesFrags_good (l : List Str) :
    ∀ f ∈ singlesFrags l, ∀ p ∈ f, goodPiece p := by
  intro f hf p hp
  rw [singlesFrags] at hf
  split at hf
  · simp only [List.mem_singleton] at hf
    subst hf
    simp only [List.mem_singleton] at hp
    subst hp
    trivial
  · obtain ⟨e, he, hfe⟩ := List.mem_map.mp hf
    subst hfe
    simp only [List.mem_singleton] at hp
    subst hp
    trivial

theorem mem_sortedClassFrags {l : List Str} {f : List Piece} :
    f ∈ sortedClassFrags l ↔ ∃ cl ∈ classes l, f = classPieces cl := by
  rw [sortedClassFrags, List.Perm.mem_iff (List.perm_insertionSort _ _),
    List.mem_map]
  constructor
  · rintro ⟨cl, h1, h2⟩; exact ⟨cl, h1, h2.symm⟩
  · rintro ⟨cl, h1, h2⟩; exact ⟨cl, h1, h2.symm⟩

theorem fragsList_good (l : List Str) :
    ∀ f ∈ fragsList l, ∀ p ∈ f, goodPiece p := by
  intro f hf
  rcases List.mem_append.mp hf with h1 | h2
  · obtain ⟨cl, hcl, he⟩ := mem_sortedClassFrags.mp h1
    subst he
    exact classPieces_good hcl
  · exact singlesFrags_good l f h2

theorem classPieces_ne_nil (cl : List Char × List Str) : classPieces cl ≠ [] := by
  rw [classPieces]
  split <;> simp

theorem fragsList_elts_ne_nil (l : List Str) : ∀ f ∈ fragsList l, f ≠ [] := by
  intro f hf
  rcases List.mem_append.mp hf with h1 | h2
  · obtain ⟨cl, hcl, he⟩ := mem_sortedClassFrags.mp h1
    subst he
    exact classPieces_ne_nil cl
  · rw [singlesFrags] at h2
    split at h2
    · simp only [List.mem_singleton] at h2
      subst h2
      simp
    · obtain ⟨e, he, hfe⟩ := List.mem_map.mp h2
      subst hfe
      simp

theorem frags_length_le (fss : List (List Piece)) (h : ∀ f ∈ fss, f ≠ []) :
    fss.length ≤ (List.intercalate ['|'] (fss.map renderPieces)).length := by
  induction fss with
  | nil => simp
  | cons f fss2 ih =>
    have hf1 : 1 ≤ (renderPieces f).length := by
      have h2 := length_le_renderPieces f
      have h3 : 0 < f.length := List.length_pos.mpr (h f (by simp))
      omega
    match fss2 with
    | [] =>
      rw [List.map_cons, List.map_nil, intercalate_single]
      simpa using hf1
    | g :: fss3 =>
      rw [List.map_cons, List.map_cons, intercalate_cons2]
      have hih := ih fun f2 hf2 => h f2 (List.mem_cons_of_mem _ hf2)
      rw [List.map_cons] at hih
      simp only [List.length_cons, List.length_append] at hih ⊢
      omega

/-- The compiled pattern parses back to exactly the emitted fragments. -/
theorem parse_either (l : List Str) (hne : fragsList l ≠ []) :
    parsePat (either l) = some ((fragsList l).map (List.map astPiece)) := by
  rw [either_eq_render, parsePat]
  apply parsePatF_render _ _ hne _ (fragsList_good l)
  have := frags_length_le (fragsList l) (fragsList_elts_ne_nil l)
  omega

/-- C2: soundness of compaction.  For every non-empty input set of non-empty
strings and every member s of the set, the pattern produced by the compactor,
matched under leftmost-earliest alternation semantics anchored at position 0
of s, produces a match of exactly the length of s. -/
theorem C2_compact_sound (l : List Str) (hne : ∀ s ∈ l, s ≠ []) :
    ∀ s ∈ l, reMatch (either l) s = some s.length := by
  intro s hs
  rcases hsform : s with _ | ⟨c, t⟩
  · exact absurd hsform (hne s hs)
  subst hsform
  have hfragsne : fragsList l ≠ [] := by
    intro h0
    rcases List.append_eq_nil.mp h0 with ⟨ha, hb⟩
    rcases ht0 : t with _ | ⟨d, t2⟩
    · subst ht0
      have hsing : [c] ∈ singles l := mem_singles.mpr ⟨hs, rfl⟩
      have h1 : reEscape [c] ∈ result1raw l := mem_result1raw.mpr ⟨[c], hsing, rfl⟩
      rw [singlesFrags] at hb
      split at hb
      · simp at hb
      · rw [List.map_eq_nil] at hb
        rw [hb] at h1
        simp at h1
    · subst ht0
      have hck : c ∈ fkeys l :=
        mem_fkeys.mpr ⟨d :: t2, mem_longPairs.mpr ⟨hs, by simp⟩⟩
      obtain ⟨cl, hcl, _, _⟩ := classes_cover hck
      have hperm := List.perm_insertionSort (keyOrder renderPieces)
        ((classes l).map classPieces)
      rw [sortedClassFrags] at ha
      rw [ha] at hperm
      have := List.map_eq_nil.mp hperm.symm.eq_nil
      rw [this] at hcl
      simp at hcl
  have hparse := parse_either l hfragsne
  rw [reMatch, hparse]
  simp only []
  rw [matchPat, fragsList, List.map_append]
  rcases ht0 : t with _ | ⟨d, t2⟩
  · subst ht0
    rw [firstSome_append_none]
    · have hsing : [c] ∈ singles l := mem_singles.mpr ⟨hs, rfl⟩
      have h1 : reEscape [c] ∈ result1raw l := mem_result1raw.mpr ⟨[c], hsing, rfl⟩
      have hesc : reEscape [c] = escChar c := by rw [reEscape]; simp
      rw [singlesFrags]
      by_cases h2 : 2 ≤ (result1raw l).length
      · rw [if_pos h2]
        simp only [List.map_cons, List.map_nil, astPiece]
        rw [firstSome]
        have hc : c ∈ (result1raw l).map (fun e => e.getLastD default) :=
          List.mem_map.mpr ⟨reEscape [c], h1, by rw [hesc, escChar_getLastD]⟩
        rw [matchSeq, if_pos hc]
        rfl
      · rw [if_neg h2]
        have hlen1 : (result1raw l).length = 1 := by
          have h3 : result1raw l ≠ [] := fun h0 => by rw [h0] at h1; simp at h1
          have h4 : (result1raw l).length ≠ 0 :=
            fun h0 => h3 (List.eq_nil_of_length_eq_zero h0)
          omega
        obtain ⟨e, hee⟩ := List.length_eq_one.mp hlen1
        have hme : e = reEscape [c] := by
          rw [hee] at h1
          have := List.mem_singleton.mp h1
          exact this.symm
        rw [hee, hme]
        simp only [List.map_cons, List.map_nil, astPiece]
        rw [firstSome]
        rw [hesc, escChar_getLastD]
        rw [matchSeq, if_pos rfl]
        rfl
    · intro f hf
      obtain ⟨f0, hf0, hfe⟩ := List.mem_map.mp hf
      obtain ⟨cl, hcl, hfc⟩ := mem_sortedClassFrags.mp hf0
      subst hfe
      rw [hfc, classFrag_single hcl c]
      rfl
  · subst ht0
    apply firstSome_append_left _ _ _ ((c :: d :: t2).length)
    · intro f hf
      obtain ⟨f0, hf0, hfe⟩ := List.mem_map.mp hf
      obtain ⟨cl, hcl, hfc⟩ := mem_sortedClassFrags.mp hf0
      subst hfe
      subst hfc
      by_cases hc : c ∈ cl.1
      · right
        have hsset := (class_member_sset hcl hc).2
        have htm : (d :: t2) ∈ cl.2 := by
          rw [← hsset]
          exact mem_sset.mpr (mem_longPairs.mpr ⟨hs, by simp⟩)
        rw [classFrag_match hcl hc htm]
        simp
      · left
        rw [classFrag_fail hcl hc]
        rfl
    · have hck : c ∈ fkeys l :=
        mem_fkeys.mpr ⟨d :: t2, mem_longPairs.mpr ⟨hs, by simp⟩⟩
      obtain ⟨cl, hcl, hcm, hcs⟩ := classes_cover hck
      refine ⟨(classPieces cl).map astPiece,
        List.mem_map.mpr ⟨classPieces cl,
          mem_sortedClassFrags.mpr ⟨cl, hcl, rfl⟩, rfl⟩, ?_⟩
      have htm : (d :: t2) ∈ cl.2 := by
        rw [hcs]
        exact mem_sset.mpr (mem_longPairs.mpr ⟨hs, by simp⟩)
      rw [classFrag_match hcl hcm htm]
      simp

/-- C2 witness: the set {"abc","ad"} compiles to "a(?:bc|d)", which matches
each member with its exact length. -/
theorem C2_witness :
    (∀ s ∈ ["abc".toList, "ad".toList], s ≠ []) ∧
    reMatch (either ["abc".toList, "ad".toList]) ("abc".toList) = some 3 ∧
    reMatch (either ["abc".toList, "ad".toList]) ("ad".toList) = some 2 :=
  ⟨by decide,
    C2_compact_sound _ (by decide) ("abc".toList) (by decide),
    C2_compact_sound _ (by decide) ("ad".toList) (by decide)⟩

/-! Specification machinery for the traversal: the universe of registrable
states, reachability, and the per-state edge characterization. -/

theorem lookup_mem {α : Type} {l : List (MState × α)} {a : MState} {b : α}
    (h : List.lookup a l = some b) : (a, b) ∈ l := by
  induction l with
  | nil => simp [List.lookup] at h
  | cons p rest ih =>
    match p with
    | (k, v) =>
      rw [List.lookup] at h
      rcases hbeq : a == k with _ | _
      · rw [hbeq] at h
        simp only [] at h
        exact List.mem_cons_of_mem _ (ih h)
      · rw [hbeq] at h
        simp only [Option.some.injEq] at h
        have hak : a = k := by
          have := eq_of_beq hbeq
          exact this
        subst hak
        subst h
        exact List.mem_cons_self _ _

/-- Every state the traversal can ever register: the begin state, the end
state, and one successor per transition of the table. -/
def universeList (m : Model) : List MState :=
  beginningState m :: endingState ::
    (m.table.flatMap fun e => e.2.map fun p => nextStateOf e.1 p.1)

theorem universeList_length (m : Model) :
    (universeList m).length = fuelBound m := by
  rw [universeList, fuelBound]
  simp only [List.length_cons, List.length_flatMap]
  have h1 : List.map (List.length ∘ fun (e : MState × List (String × Nat)) =>
      List.map (fun p => nextStateOf e.1 p.1) e.2) m.table =
      m.table.map fun e => e.2.length := by
    apply List.map_congr_left
    intro e _
    simp [Function.comp]
  rw [h1]

theorem nextState_mem_universe {m : Model} {s : MState}
    {ts : List (String × Nat)} (hl : lookupTable m s = some ts)
    {p : String × Nat} (hp : p ∈ ts) :
    nextStateOf s p.1 ∈ universeList m := by
  have hmem : (s, ts) ∈ m.table := lookup_mem hl
  rw [universeList]
  refine List.mem_cons_of_mem _ (List.mem_cons_of_mem _ ?_)
  rw [List.mem_flatMap]
  exact ⟨(s, ts), hmem, List.mem_map.mpr ⟨p, hp, rfl⟩⟩

/-- Reachability from the begin state over the transition table. -/
inductive Reach (m : Model) : MState → Prop where
  | base : Reach m (beginningState m)
  | step {s : MState} {ts : List (String × Nat)} {p : String × Nat} :
      Reach m s → lookupTable m s = some ts → p ∈ ts → Reach m (nextStateOf s p.1)

/-- The total raw weight of a transition list (textmodel.py line 287). -/
def totalOf (ts : List (String × Nat)) : ℚ := (ts.map fun p => (p.2 : ℚ)).sum

/-- The edges leaving a vertex, with their weights, in recording order. -/
def edgesFrom (σ : Trav) (v : MState) : List ((Nat × Nat) × ℚ) :=
  (σ.edges.zip σ.weights).filter fun e => e.1.1 == idxOf σ.vertices v

/-- All successors of a state are registered. -/
def succClosed (m : Model) (σ : Trav) (v : MState) : Prop :=
  ∀ ts, lookupTable m v = some ts → ∀ p ∈ ts, nextStateOf v p.1 ∈ σ.vertices

/-- The edges leaving a state are exactly one edge per transition, in table
order, to the successor's index, weighted by rawWeight/totalWeight. -/
def edgesSettled (m : Model) (σ : Trav) (v : MState) : Prop :=
  ∀ ts, lookupTable m v = some ts →
    edgesFrom σ v = ts.map fun p =>
      ((idxOf σ.vertices v, idxOf σ.vertices (nextStateOf v p.1)),
        (p.2 : ℚ) / totalOf ts)

/-- The block decomposition of the edge list at one state: the edge list
contains a contiguous run of blocks, one per transition of the state in table
order, each block ending in that transition's own edge — so the edge is
recorded only after every edge discovered while expanding its successor,
which makes up the rest of the block (post-order recording). -/
def BlocksAt (σ : Trav) (v : MState) (ts : List (String × Nat)) : Prop :=
  ∃ pre blocks post, σ.edges = pre ++ blocks.flatten ++ post ∧
    List.Forall₂ (fun (b : List (Nat × Nat)) (p : String × Nat) =>
      ∃ sub, b = sub ++
        [(idxOf σ.vertices v, idxOf σ.vertices (nextStateOf v p.1))]) blocks ts

/-- Invariants of the traversal state. -/
structure TravInv (m : Model) (σ : Trav) : Prop where
  nodup : σ.vertices.Nodup
  univ : ∀ v ∈ σ.vertices, v ∈ universeList m
  ebound : ∀ e ∈ σ.edges, e.1 < σ.vertices.length
  wlen : σ.edges.length = σ.weights.length

/-- The postcondition of one traversal call. -/
structure TravOut (m : Model) (st : MState) (σ σ2 : Trav) : Prop where
  inv : TravInv m σ2
  grows : ∃ w, σ2.vertices = σ.vertices ++ w
  egrows : ∃ es, σ2.edges = σ.edges ++ es
  self : st ∈ σ2.vertices
  settled : ∀ v ∈ σ2.vertices, v ∉ σ.vertices →
    succClosed m σ2 v ∧ edgesSettled m σ2 v
  blocks : ∀ v ∈ σ2.vertices, v ∉ σ.vertices →
    ∀ ts, lookupTable m v = some ts → BlocksAt σ2 v ts
  oldE : ∀ v ∈ σ.vertices, edgesFrom σ2 v = edgesFrom σ v
  reach : Reach m st → (∀ v ∈ σ.vertices, Reach m v) →
    ∀ v ∈ σ2.vertices, Reach m v

theorem idxOf_lt_length {vs : List MState} {v : MState} (h : v ∈ vs) :
    idxOf vs v < vs.length := by
  induction vs with
  | nil => simp at h
  | cons u rest ih =>
    rw [idxOf]
    by_cases he : u = v
    · rw [if_pos he]; simp
    · rw [if_neg he]
      have h2 : v ∈ rest := by
        rcases List.mem_cons.mp h with h3 | h3
        · exact absurd h3.symm he
        · exact h3
      have := ih h2
      simp
      omega

theorem idxOf_append_mem {vs : List MState} {v : MState} (h : v ∈ vs)
    (w : List MState) : idxOf (vs ++ w) v = idxOf vs v := by
  induction vs with
  | nil => simp at h
  | cons u rest ih =>
    rw [List.cons_append, idxOf, idxOf]
    by_cases he : u = v
    · rw [if_pos he, if_pos he]
    · rw [if_neg he, if_neg he]
      have h2 : v ∈ rest := by
        rcases List.mem_cons.mp h with h3 | h3
        · exact absurd h3.symm he
        · exact h3
      rw [ih h2]

theorem idxOf_not_mem {vs : List MState} {v : MState} (h : v ∉ vs) :
    idxOf vs v = vs.length := by
  induction vs with
  | nil => rfl
  | cons u rest ih =>
    rw [idxOf]
    have he : ¬u = v := fun h2 => h (by rw [h2]; simp)
    rw [if_neg he]
    have h2 : v ∉ rest := fun h3 => h (List.mem_cons_of_mem _ h3)
    rw [ih h2]
    rfl

theorem idxOf_inj {vs : List MState} (hnd : vs.Nodup) {u v : MState}
    (hu : u ∈ vs) (hv : v ∈ vs) (he : idxOf vs u = idxOf vs v) : u = v := by
  induction vs with
  | nil => simp at hu
  | cons a rest ih =>
    rw [idxOf, idxOf] at he
    by_cases hau : a = u
    · by_cases hav : a = v
      · rw [← hau, ← hav]
      · rw [if_pos hau, if_neg hav] at he
        simp at he
    · by_cases hav : a = v
      · rw [if_neg hau, if_pos hav] at he
        simp at he
      · rw [if_neg hau, if_neg hav] at he
        simp only [Nat.add_right_cancel_iff] at he
        have hu2 : u ∈ rest := by
          rcases List.mem_cons.mp hu with h3 | h3
          · exact absurd h3.symm hau
          · exact h3
        have hv2 : v ∈ rest := by
          rcases List.mem_cons.mp hv with h3 | h3
          · exact absurd h3.symm hav
          · exact h3
        exact ih (List.nodup_cons.mp hnd).2 hu2 hv2 he

theorem subset_univ_length {m : Model} {vs : List MState} (hnd : vs.Nodup)
    (hsub : ∀ v ∈ vs, v ∈ universeList m) :
    vs.length ≤ fuelBound m := by
  have h1 : vs.toFinset.card = vs.length := List.toFinset_card_of_nodup hnd
  have h2 : vs.toFinset ⊆ (universeList m).toFinset := by
    intro x hx
    rw [List.mem_toFinset] at hx ⊢
    exact hsub x hx
  have h3 := Finset.card_le_card h2
  have h4 := List.toFinset_card_le (universeList m)
  rw [universeList_length] at h4
  omega

theorem mem_of_subset_univ_full {m : Model} {vs : List MState} (hnd : vs.Nodup)
    (hsub : ∀ v ∈ vs, v ∈ universeList m)
    (hlen : fuelBound m ≤ vs.length) {st : MState}
    (hst : st ∈ universeList m) : st ∈ vs := by
  have h1 : vs.toFinset.card = vs.length := List.toFinset_card_of_nodup hnd
  have h2 : vs.toFinset ⊆ (universeList m).toFinset := by
    intro x hx
    rw [List.mem_toFinset] at hx ⊢
    exact hsub x hx
  have h4 := List.toFinset_card_le (universeList m)
  rw [universeList_length] at h4
  have h5 : (universeList m).toFinset = vs.toFinset :=
    (Finset.eq_of_subset_of_card_le h2 (by omega)).symm
  have h6 : st ∈ (universeList m).toFinset := List.mem_toFinset.mpr hst
  rw [h5] at h6
  exact List.mem_toFinset.mp h6

theorem mem_grows {vs vs2 : List MState} (h : ∃ w, vs2 = vs ++ w) {v : MState}
    (hv : v ∈ vs) : v ∈ vs2 := by
  obtain ⟨w, he⟩ := h
  subst he
  exact List.mem_append_left _ hv

theorem idx_grows {vs vs2 : List MState} (h : ∃ w, vs2 = vs ++ w) {v : MState}
    (hv : v ∈ vs) : idxOf vs2 v = idxOf vs v := by
  obtain ⟨w, he⟩ := h
  subst he
  exact idxOf_append_mem hv w

theorem grows_trans {vs1 vs2 vs3 : List MState} (h1 : ∃ w, vs2 = vs1 ++ w)
    (h2 : ∃ w, vs3 = vs2 ++ w) : ∃ w, vs3 = vs1 ++ w := by
  obtain ⟨w1, he1⟩ := h1
  obtain ⟨w2, he2⟩ := h2
  exact ⟨w1 ++ w2, by rw [he2, he1, List.append_assoc]⟩

theorem idxOf_append_self {vs : List MState} {v : MState} (h : v ∉ vs) :
    idxOf (vs ++ [v]) v = vs.length := by
  induction vs with
  | nil => simp [idxOf]
  | cons u rest ih =>
    have hne : ¬u = v := fun h2 => h (by rw [h2]; simp)
    rw [List.cons_append, idxOf, if_neg hne,
      ih (fun h3 => h (List.mem_cons_of_mem _ h3))]
    rfl

theorem forall2_blocks_idx {vs vs2 : List MState} {v : MState}
    (hgrow : ∃ w, vs2 = vs ++ w) (hv : v ∈ vs) :
    ∀ (ts : List (String × Nat)) (blocks : List (List (Nat × Nat))),
      (∀ p ∈ ts, nextStateOf v p.1 ∈ vs) →
      List.Forall₂ (fun (b : List (Nat × Nat)) (p : String × Nat) =>
        ∃ sub, b = sub ++
          [(idxOf vs v, idxOf vs (nextStateOf v p.1))]) blocks ts →
      List.Forall₂ (fun (b : List (Nat × Nat)) (p : String × Nat) =>
        ∃ sub, b = sub ++
          [(idxOf vs2 v, idxOf vs2 (nextStateOf v p.1))]) blocks ts := by
  intro ts
  induction ts with
  | nil =>
    intro blocks hsucc hf
    cases hf
    exact List.Forall₂.nil
  | cons p ps ih =>
    intro blocks hsucc hf
    cases hf with
    | cons h1 h2 =>
      refine List.Forall₂.cons ?_
        (ih _ (fun q hq => hsucc q (List.mem_cons_of_mem _ hq)) h2)
      obtain ⟨sub, hsub⟩ := h1
      refine ⟨sub, ?_⟩
      rw [hsub, idx_grows hgrow hv,
        idx_grows hgrow (hsucc p (List.mem_cons_self _ _))]

theorem blocksAt_mono {σ2 σ3 : Trav} {v : MState} {ts : List (String × Nat)}
    (hv : v ∈ σ2.vertices)
    (hsucc : ∀ p ∈ ts, nextStateOf v p.1 ∈ σ2.vertices)
    (hgrow : ∃ w, σ3.vertices = σ2.vertices ++ w)
    (hegrow : ∃ es, σ3.edges = σ2.edges ++ es)
    (h : BlocksAt σ2 v ts) : BlocksAt σ3 v ts := by
  obtain ⟨pre, blocks, post, hE, hF⟩ := h
  obtain ⟨es, hes⟩ := hegrow
  refine ⟨pre, blocks, post ++ es, ?_, ?_⟩
  · rw [hes, hE]
    simp [List.append_assoc]
  · exact forall2_blocks_idx hgrow hv ts blocks hsucc hF

theorem edgesFrom_vertices_ext {E : List (Nat × Nat)} {W : List ℚ}
    {vs : List MState} (w : List MState) {v : MState} (h : v ∈ vs) :
    edgesFrom ⟨vs ++ w, E, W⟩ v = edgesFrom ⟨vs, E, W⟩ v := by
  rw [edgesFrom, edgesFrom]
  simp only []
  rw [idxOf_append_mem h]

theorem edgesFrom_append_one (σ : Trav) (hw : σ.edges.length = σ.weights.length)
    (e : Nat × Nat) (q : ℚ) (v : MState) :
    edgesFrom ⟨σ.vertices, σ.edges ++ [e], σ.weights ++ [q]⟩ v =
      edgesFrom σ v ++ if e.1 = idxOf σ.vertices v then [(e, q)] else [] := by
  rw [edgesFrom, edgesFrom]
  simp only []
  rw [List.zip_append hw, List.filter_append]
  congr 1
  by_cases he : e.1 = idxOf σ.vertices v
  · rw [if_pos he]
    simp [List.filter, he]
  · rw [if_neg he]
    have hb : (e.1 == idxOf σ.vertices v) = false := by simp [he]
    simp [List.filter, hb]

theorem edgesFrom_fresh {m : Model} {σ : Trav} {st : MState}
    (hinv : TravInv m σ) (h : st ∉ σ.vertices) :
    edgesFrom ⟨σ.vertices ++ [st], σ.edges, σ.weights⟩ st = [] := by
  rw [edgesFrom]
  simp only []
  rw [idxOf_append_self h]
  apply List.filter_eq_nil.mpr
  intro pair hpair
  have h1 := (List.of_mem_zip hpair).1
  have h2 := hinv.ebound pair.1 h1
  simp only [beq_iff_eq]
  omega

/-- The postcondition of the transition loop for one state. -/
structure GoOut (m : Model) (state : MState) (ts : List (String × Nat))
    (total : ℚ) (σ σ2 : Trav) : Prop where
  inv : TravInv m σ2
  grows : ∃ w, σ2.vertices = σ.vertices ++ w
  egrows : ∃ es, σ2.edges = σ.edges ++ es
  settled : ∀ v ∈ σ2.vertices, v ∉ σ.vertices →
    succClosed m σ2 v ∧ edgesSettled m σ2 v
  blocks : ∀ v ∈ σ2.vertices, v ∉ σ.vertices →
    ∀ ts2, lookupTable m v = some ts2 → BlocksAt σ2 v ts2
  oldE : ∀ v ∈ σ.vertices, v ≠ state → edgesFrom σ2 v = edgesFrom σ v
  stateE : edgesFrom σ2 state = edgesFrom σ state ++
    ts.map (fun p => ((idxOf σ2.vertices state,
      idxOf σ2.vertices (nextStateOf state p.1)), (p.2 : ℚ) / total))
  succs : ∀ p ∈ ts, nextStateOf state p.1 ∈ σ2.vertices
  reach : Reach m state → (∀ v ∈ σ.vertices, Reach m v) →
    ∀ v ∈ σ2.vertices, Reach m v

theorem travGo_spec (m : Model) (lowB : Nat) (trav : MState → Trav → Trav)
    (hspec : ∀ st σ, TravInv m σ → st ∈ universeList m →
      lowB ≤ σ.vertices.length → TravOut m st σ (trav st σ))
    (state : MState) (tsAll : List (String × Nat))
    (hlk : lookupTable m state = some tsAll) (total : ℚ) :
    ∀ ts σ, (∀ p ∈ ts, p ∈ tsAll) → TravInv m σ → state ∈ σ.vertices →
      lowB ≤ σ.vertices.length →
      GoOut m state ts total σ (travGo trav state total ts σ) := by
  intro ts
  induction ts with
  | nil =>
    intro σ hsub hinv hst hlow
    rw [travGo]
    exact { inv := hinv
            grows := ⟨[], by simp⟩
            egrows := ⟨[], by simp⟩
            settled := fun v hv hnv => absurd hv hnv
            blocks := fun v hv hnv => absurd hv hnv
            oldE := fun _ _ _ => rfl
            stateE := by simp
            succs := by simp
            reach := fun _ hold v hv => hold v hv }
  | cons p ts2 ih =>
    intro σ hsub hinv hst hlow
    rw [travGo]
    have hpm : p ∈ tsAll := hsub p (by simp)
    have hns_univ : nextStateOf state p.1 ∈ universeList m :=
      nextState_mem_universe hlk hpm
    have hout1 := hspec (nextStateOf state p.1) σ hinv hns_univ hlow
    set ns := nextStateOf state p.1 with hns
    set σ1 := trav ns σ with hσ1
    have hst1 : state ∈ σ1.vertices := mem_grows hout1.grows hst
    have hns1 : ns ∈ σ1.vertices := hout1.self
    set σ1x : Trav := { σ1 with
      edges := σ1.edges ++ [(idxOf σ1.vertices state, idxOf σ1.vertices ns)],
      weights := σ1.weights ++ [(p.2 : ℚ) / total] } with hσ1x
    have hvx : σ1x.vertices = σ1.vertices := rfl
    have hinv1x : TravInv m σ1x := by
      refine ⟨hout1.inv.nodup, hout1.inv.univ, ?_, ?_⟩
      · intro e he
        rcases List.mem_append.mp he with h1 | h1
        · exact hout1.inv.ebound e h1
        · simp only [List.mem_singleton] at h1
          subst h1
          exact idxOf_lt_length hst1
      · simp only [List.length_append, List.length_cons, List.length_nil]
        rw [hout1.inv.wlen]
    have hst1x : state ∈ σ1x.vertices := hst1
    have hlow1x : lowB ≤ σ1x.vertices.length := by
      obtain ⟨w, hw⟩ := hout1.grows
      rw [hvx, hw]
      simp only [List.length_append]
      omega
    have ihout := ih σ1x (fun q hq => hsub q (List.mem_cons_of_mem _ hq))
      hinv1x hst1x hlow1x
    have grows1x : ∃ w, σ1x.vertices = σ.vertices ++ w := hout1.grows
    have grows_all : ∃ w, (travGo trav state total ts2 σ1x).vertices =
        σ.vertices ++ w := grows_trans grows1x ihout.grows
    have grows_1to2 : ∃ w, (travGo trav state total ts2 σ1x).vertices =
        σ1.vertices ++ w := ihout.grows
    have exclOne : ∀ v ∈ σ1.vertices, v ≠ state →
        edgesFrom σ1x v = edgesFrom σ1 v := by
      intro v hv hvne
      rw [hσ1x, edgesFrom_append_one σ1 hout1.inv.wlen]
      have hne : ¬(idxOf σ1.vertices state, idxOf σ1.vertices ns).1 =
          idxOf σ1.vertices v := by
        simp only []
        intro he
        exact hvne (idxOf_inj hout1.inv.nodup hst1 hv he).symm
      rw [if_neg hne, List.append_nil]
    have egrows_all : ∃ es, (travGo trav state total ts2 σ1x).edges =
        σ.edges ++ es := by
      obtain ⟨es1, he1⟩ := hout1.egrows
      obtain ⟨es2, he2⟩ := ihout.egrows
      refine ⟨es1 ++ [(idxOf σ1.vertices state, idxOf σ1.vertices ns)] ++ es2, ?_⟩
      rw [he2]
      rw [hσ1x]
      simp only []
      rw [he1]
      simp [List.append_assoc]
    refine { inv := ihout.inv
             grows := grows_all
             egrows := egrows_all
             settled := ?_
             blocks := ?_
             oldE := ?_
             stateE := ?_
             succs := ?_
             reach := ?_ }
    · intro v hv hnv
      by_cases hv1 : v ∈ σ1.vertices
      · have hvne : v ≠ state := fun he => hnv (he ▸ hst)
        have h1 := hout1.settled v hv1 hnv
        have hEF : edgesFrom (travGo trav state total ts2 σ1x) v =
            edgesFrom σ1 v := by
          rw [ihout.oldE v hv1 hvne, exclOne v hv1 hvne]
        constructor
        · intro ts' hlk' q hq
          exact mem_grows grows_1to2 (h1.1 ts' hlk' q hq)
        · intro ts' hlk'
          rw [hEF, h1.2 ts' hlk']
          apply List.map_congr_left
          intro q hq
          rw [idx_grows grows_1to2 hv1,
            idx_grows grows_1to2 (h1.1 ts' hlk' q hq)]
      · exact ihout.settled v hv hv1
    · intro v hv hnv ts' hlk'
      by_cases hv1 : v ∈ σ1.vertices
      · have hset := hout1.settled v hv1 hnv
        have hb1 : BlocksAt σ1 v ts' := hout1.blocks v hv1 hnv ts' hlk'
        have hegrow : ∃ es, (travGo trav state total ts2 σ1x).edges =
            σ1.edges ++ es := by
          obtain ⟨es2, he2⟩ := ihout.egrows
          refine ⟨[(idxOf σ1.vertices state, idxOf σ1.vertices ns)] ++ es2, ?_⟩
          rw [he2, hσ1x]
          simp only []
          simp [List.append_assoc]
        exact blocksAt_mono hv1 (fun q hq => hset.1 ts' hlk' q hq)
          grows_1to2 hegrow hb1
      · exact ihout.blocks v hv hv1 ts' hlk'
    · intro v hv hvne
      rw [ihout.oldE v (mem_grows hout1.grows hv) hvne, exclOne v
        (mem_grows hout1.grows hv) hvne, hout1.oldE v hv]
    · have hx : edgesFrom σ1x state = edgesFrom σ state ++
          [((idxOf σ1.vertices state, idxOf σ1.vertices ns), (p.2 : ℚ) / total)] := by
        rw [hσ1x, edgesFrom_append_one σ1 hout1.inv.wlen, if_pos rfl,
          hout1.oldE state hst]
      rw [ihout.stateE, hx, List.append_assoc, List.map_cons]
      rw [idx_grows grows_1to2 hst1, idx_grows grows_1to2 hns1]
      rfl
    · intro q hq
      rcases List.mem_cons.mp hq with he | h2
      · subst he
        exact mem_grows grows_1to2 hns1
      · exact ihout.succs q h2
    · intro hR hold v hv
      have hns_reach : Reach m ns := Reach.step hR hlk hpm
      have hold1 : ∀ v ∈ σ1.vertices, Reach m v :=
        hout1.reach hns_reach hold
      exact ihout.reach hR hold1 v hv

/-! Block structure of the edges recorded by the transition loop, for the
corrected form of C9: each transition contributes exactly one block, whose
last entry is that transition's own edge, recorded after all edges discovered
while expanding the successor (post-order). -/

theorem travGo_blocks (m : Model) (lowB : Nat) (trav : MState → Trav → Trav)
    (hspec : ∀ st σ, TravInv m σ → st ∈ universeList m →
      lowB ≤ σ.vertices.length → TravOut m st σ (trav st σ))
    (state : MState) (tsAll : List (String × Nat))
    (hlk : lookupTable m state = some tsAll) (total : ℚ) :
    ∀ ts σ, (∀ p ∈ ts, p ∈ tsAll) → TravInv m σ → state ∈ σ.vertices →
      lowB ≤ σ.vertices.length →
      ∃ blocks : List (List (Nat × Nat)),
        (travGo trav state total ts σ).edges = σ.edges ++ blocks.flatten ∧
        List.Forall₂ (fun (b : List (Nat × Nat)) (p : String × Nat) =>
          ∃ sub, b = sub ++
            [(idxOf (travGo trav state total ts σ).vertices state,
              idxOf (travGo trav state total ts σ).vertices
                (nextStateOf state p.1))]) blocks ts := by
  intro ts
  induction ts with
  | nil =>
    intro σ hsub hinv hst hlow
    rw [travGo]
    exact ⟨[], by simp, List.Forall₂.nil⟩
  | cons p ts2 ih =>
    intro σ hsub hinv hst hlow
    rw [travGo]
    have hpm : p ∈ tsAll := hsub p (by simp)
    have hns_univ : nextStateOf state p.1 ∈ universeList m :=
      nextState_mem_universe hlk hpm
    have hout1 := hspec (nextStateOf state p.1) σ hinv hns_univ hlow
    set ns := nextStateOf state p.1 with hns
    set σ1 := trav ns σ with hσ1
    have hst1 : state ∈ σ1.vertices := mem_grows hout1.grows hst
    have hns1 : ns ∈ σ1.vertices := hout1.self
    set σ1x : Trav := { σ1 with
      edges := σ1.edges ++ [(idxOf σ1.vertices state, idxOf σ1.vertices ns)],
      weights := σ1.weights ++ [(p.2 : ℚ) / total] } with hσ1x
    have hvx : σ1x.vertices = σ1.vertices := rfl
    have hinv1x : TravInv m σ1x := by
      refine ⟨hout1.inv.nodup, hout1.inv.univ, ?_, ?_⟩
      · intro e he
        rcases List.mem_append.mp he with h1 | h1
        · exact hout1.inv.ebound e h1
        · simp only [List.mem_singleton] at h1
          subst h1
          exact idxOf_lt_length hst1
      · simp only [List.length_append, List.length_cons, List.length_nil]
        rw [hout1.inv.wlen]
    have hst1x : state ∈ σ1x.vertices := hst1
    have hlow1x : lowB ≤ σ1x.vertices.length := by
      obtain ⟨w, hw⟩ := hout1.grows
      rw [hvx, hw]
      simp only [List.length_append]
      omega
    have hsub2 : ∀ q ∈ ts2, q ∈ tsAll :=
      fun q hq => hsub q (List.mem_cons_of_mem _ hq)
    obtain ⟨blocks2, he2, hf2⟩ := ih σ1x hsub2 hinv1x hst1x hlow1x
    have hgo2 := travGo_spec m lowB trav hspec state tsAll hlk total ts2 σ1x
      hsub2 hinv1x hst1x hlow1x
    have grows_1to2 : ∃ w, (travGo trav state total ts2 σ1x).vertices =
        σ1.vertices ++ w := hgo2.grows
    obtain ⟨es1, hes1⟩ := hout1.egrows
    refine ⟨(es1 ++ [(idxOf σ1.vertices state, idxOf σ1.vertices ns)]) :: blocks2,
      ?_, ?_⟩
    · rw [he2, hσ1x]
      simp only []
      rw [hes1, List.flatten_cons]
      simp [List.append_assoc]
    · refine List.Forall₂.cons ⟨es1, ?_⟩ hf2
      rw [idx_grows grows_1to2 hst1, idx_grows grows_1to2 hns1]

/-- The main specification of the traversal: with enough fuel relative to the
registered vertex count, one call registers its argument, keeps the
invariants, settles every newly registered state (all successors registered,
edge list from it exactly one edge per transition with weight
rawWeight/totalWeight), leaves edges of previously registered states
untouched, and registers only reachable states when started from reachable
ones.  The fuel can only run out when every universe state, in particular the
argument, is already registered, so exhaustion is harmless. -/
theorem traverse_spec (m : Model) :
    ∀ fuel st σ, TravInv m σ → st ∈ universeList m →
      fuelBound m ≤ fuel + σ.vertices.length →
      TravOut m st σ (traverse m fuel st σ) := by
  intro fuel
  induction fuel with
  | zero =>
    intro st σ hinv hst hb
    rw [traverse]
    have hmem : st ∈ σ.vertices :=
      mem_of_subset_univ_full hinv.nodup hinv.univ (by omega) hst
    exact { inv := hinv
            grows := ⟨[], by simp⟩
            egrows := ⟨[], by simp⟩
            self := hmem
            settled := fun v hv hnv => absurd hv hnv
            blocks := fun v hv hnv => absurd hv hnv
            oldE := fun _ _ => rfl
            reach := fun _ hold v hv => hold v hv }
  | succ fuel ih =>
    intro st σ hinv hst hb
    rw [traverse]
    by_cases hvis : st ∈ σ.vertices
    · rw [if_pos hvis]
      exact { inv := hinv
              grows := ⟨[], by simp⟩
              egrows := ⟨[], by simp⟩
              self := hvis
              settled := fun v hv hnv => absurd hv hnv
              blocks := fun v hv hnv => absurd hv hnv
              oldE := fun _ _ => rfl
              reach := fun _ hold v hv => hold v hv }
    · rw [if_neg hvis]
      simp only []
      have hinv0 : TravInv m
          { σ with vertices := σ.vertices ++ [st] } := by
        refine ⟨?_, ?_, ?_, hinv.wlen⟩
        · rw [List.nodup_append]
          exact ⟨hinv.nodup, List.nodup_singleton st,
            fun v hv => by simp; intro he; subst he; exact hvis hv⟩
        · intro v hv
          rcases List.mem_append.mp hv with h1 | h1
          · exact hinv.univ v h1
          · simp only [List.mem_singleton] at h1
            subst h1
            exact hst
        · intro e he
          have := hinv.ebound e he
          simp only [List.length_append, List.length_cons, List.length_nil]
          omega
      rcases hlk : lookupTable m st with _ | ts
      · refine { inv := hinv0
                 grows := ⟨[st], rfl⟩
                 egrows := ⟨[], by simp⟩
                 self := by simp
                 settled := ?_
                 blocks := ?_
                 oldE := ?_
                 reach := ?_ }
        · intro v hv hnv
          have hvst : v = st := by
            rcases List.mem_append.mp hv with h1 | h1
            · exact absurd h1 hnv
            · simpa using h1
          subst hvst
          constructor
          · intro ts' hlk'
            rw [hlk] at hlk'
            simp at hlk'
          · intro ts' hlk'
            rw [hlk] at hlk'
            simp at hlk'
        · intro v hv hnv ts' hlk'
          have hvst : v = st := by
            rcases List.mem_append.mp hv with h1 | h1
            · exact absurd h1 hnv
            · simpa using h1
          subst hvst
          rw [hlk] at hlk'
          simp at hlk'
        · intro v hv
          exact edgesFrom_vertices_ext [st] hv
        · intro hR hold v hv
          rcases List.mem_append.mp hv with h1 | h1
          · exact hold v h1
          · simp only [List.mem_singleton] at h1
            subst h1
            exact hR
      · have hgo := travGo_spec m (fuelBound m - fuel) (traverse m fuel)
          (fun st2 σ2 hinv2 hst2 hlow2 => ih st2 σ2 hinv2 hst2 (by omega))
          st ts hlk ((ts.map fun p => (p.2 : ℚ)).sum) ts
          { σ with vertices := σ.vertices ++ [st] }
          (fun q hq => hq) hinv0 (by simp)
          (by simp only [List.length_append, List.length_cons, List.length_nil]
              omega)
        have hblk := travGo_blocks m (fuelBound m - fuel) (traverse m fuel)
          (fun st2 σ2 hinv2 hst2 hlow2 => ih st2 σ2 hinv2 hst2 (by omega))
          st ts hlk ((ts.map fun p => (p.2 : ℚ)).sum) ts
          { σ with vertices := σ.vertices ++ [st] }
          (fun q hq => hq) hinv0 (by simp)
          (by simp only [List.length_append, List.length_cons, List.length_nil]
              omega)
        set σ0 : Trav := { σ with vertices := σ.vertices ++ [st] } with hσ0
        set σ2 := travGo (traverse m fuel) st ((ts.map fun p => (p.2 : ℚ)).sum)
          ts σ0 with hσ2
        have hgrows0 : ∃ w, σ2.vertices = σ.vertices ++ w :=
          grows_trans ⟨[st], rfl⟩ hgo.grows
        have hstv : st ∈ σ2.vertices :=
          mem_grows hgo.grows (by simp)
        refine { inv := hgo.inv
                 grows := hgrows0
                 egrows := hgo.egrows
                 self := hstv
                 settled := ?_
                 blocks := ?_
                 oldE := ?_
                 reach := ?_ }
        · intro v hv hnv
          by_cases hvst : v = st
          · subst hvst
            constructor
            · intro ts' hlk' q hq
              rw [hlk] at hlk'
              simp only [Option.some.injEq] at hlk'
              subst hlk'
              exact hgo.succs q hq
            · intro ts' hlk'
              rw [hlk] at hlk'
              simp only [Option.some.injEq] at hlk'
              subst hlk'
              have h0 : edgesFrom σ0 v = [] := edgesFrom_fresh hinv hvis
              rw [hgo.stateE, h0, List.nil_append]
              rfl
          · have hv0 : v ∉ σ0.vertices := by
              rw [hσ0]
              simp only [List.mem_append, List.mem_singleton]
              rintro (h1 | h1)
              · exact hnv h1
              · exact hvst h1
            exact hgo.settled v hv hv0
        · intro v hv hnv ts' hlk'
          by_cases hvst : v = st
          · subst hvst
            rw [hlk] at hlk'
            simp only [Option.some.injEq] at hlk'
            subst hlk'
            obtain ⟨blocks, hE, hF⟩ := hblk
            refine ⟨σ0.edges, blocks, [], ?_, hF⟩
            rw [hE, List.append_nil]
          · have hv0 : v ∉ σ0.vertices := by
              rw [hσ0]
              simp only [List.mem_append, List.mem_singleton]
              rintro (h1 | h1)
              · exact hnv h1
              · exact hvst h1
            exact hgo.blocks v hv hv0 ts' hlk'
        · intro v hv
          have hvne : v ≠ st := fun he => hvis (he ▸ hv)
          rw [hgo.oldE v (by rw [hσ0]; exact List.mem_append_left _ hv) hvne]
          exact edgesFrom_vertices_ext [st] hv
        · intro hR hold v hv
          apply hgo.reach hR _ v hv
          intro u hu
          rcases List.mem_append.mp hu with h1 | h1
          · exact hold u h1
          · simp only [List.mem_singleton] at h1
            subst h1
            exact hR

/-! Extraction-level corollaries of the traversal specification. -/

theorem extract_out (m : Model) :
    TravOut m (beginningState m) ⟨[], [], []⟩ (extract m) := by
  rw [extract]
  apply traverse_spec
  · exact ⟨List.nodup_nil, by simp, by simp, rfl⟩
  · rw [universeList]
    exact List.mem_cons_self _ _
  · simp

theorem reach_mem_extract {m : Model} {v : MState} (h : Reach m v) :
    v ∈ (extract m).vertices := by
  have hout := extract_out m
  induction h with
  | base => exact hout.self
  | step hr hlk hp ih =>
    exact (hout.settled _ ih (by simp)).1 _ hlk _ hp

theorem extract_mem_reach {m : Model} {v : MState}
    (h : v ∈ (extract m).vertices) : Reach m v := by
  have hout := extract_out m
  exact hout.reach Reach.base (by simp) v h

theorem totalOf_natCast (ts : List (String × Nat)) :
    totalOf ts = (((ts.map Prod.snd).sum : Nat) : ℚ) := by
  rw [totalOf]
  induction ts with
  | nil => simp
  | cons p rest ih =>
    simp only [List.map_cons, List.sum_cons, ih]
    norm_cast

theorem sum_div_totalOf (ts : List (String × Nat))
    (hpos : 0 < (ts.map Prod.snd).sum) :
    (ts.map fun p => (p.2 : ℚ) / totalOf ts).sum = 1 := by
  have htot : totalOf ts = (((ts.map Prod.snd).sum : Nat) : ℚ) :=
    totalOf_natCast ts
  have hgen : ∀ (l : List (String × Nat)) (T : ℚ),
      (l.map fun p => (p.2 : ℚ) / T).sum = (l.map fun p => (p.2 : ℚ)).sum / T := by
    intro l T
    induction l with
    | nil => simp
    | cons p rest ih => simp [ih, add_div]
  rw [hgen]
  rw [show (ts.map fun p => (p.2 : ℚ)).sum = totalOf ts from rfl, htot]
  have hne : (((ts.map Prod.snd).sum : Nat) : ℚ) ≠ 0 := by
    have : (0 : ℚ) < (((ts.map Prod.snd).sum : Nat) : ℚ) := by
      exact_mod_cast hpos
    exact ne_of_gt this
  exact div_self hne

/-- C7: for every state of a trained model reachable by the traversal that has
at least one outgoing transition (positive total raw weight), the edges
recorded by extract out of that state carry exactly the probabilities
rawWeight / (sum of raw weights of the transitions leaving the state), and
those probabilities sum to exactly 1 in exact rational arithmetic. -/
theorem C7_probabilities_sum_to_one (m : Model) (v : MState)
    (hre : Reach m v) (ts : List (String × Nat))
    (hlk : lookupTable m v = some ts)
    (hpos : 0 < (ts.map Prod.snd).sum) :
    (edgesFrom (extract m) v).map (fun e => e.2) =
      ts.map (fun p => (p.2 : ℚ) / totalOf ts) ∧
    ((edgesFrom (extract m) v).map (fun e => e.2)).sum = 1 := by
  have hout := extract_out m
  have hv : v ∈ (extract m).vertices := reach_mem_extract hre
  have hs := (hout.settled v hv (by simp)).2 ts hlk
  have hmap : (edgesFrom (extract m) v).map (fun e => e.2) =
      ts.map (fun p => (p.2 : ℚ) / totalOf ts) := by
    rw [hs, List.map_map]
    rfl
  exact ⟨hmap, by rw [hmap]; exact sum_div_totalOf ts hpos⟩

theorem C7_witness :
    (edgesFrom (extract cm1) ["a"]).map (fun e => e.2) =
      [(("a" : String), 2), (("___END__" : String), 1)].map
        (fun p => (p.2 : ℚ) / totalOf [(("a" : String), 2), (("___END__" : String), 1)]) ∧
    ((edgesFrom (extract cm1) ["a"]).map (fun e => e.2)).sum = 1 := by
  have hlkb : lookupTable cm1 (beginningState cm1) =
      some [(("a" : String), 1)] := by decide
  have hpmem : (("a" : String), 1) ∈ [(("a" : String), 1)] := by decide
  have h0 : Reach cm1 (nextStateOf (beginningState cm1) "a") :=
    Reach.step Reach.base hlkb hpmem
  have he : nextStateOf (beginningState cm1) "a" = ["a"] := by decide
  rw [he] at h0
  exact C7_probabilities_sum_to_one cm1 ["a"] h0
    [(("a" : String), 2), (("___END__" : String), 1)] (by decide) (by decide)

/-! An independent breadth-first search over the transition table, used to
state C8: the node set of extract equals the set of reachable states. -/

/-- The successor states of one state under the transition table, one per
transition (textmodel.py lines 289-293). -/
def succsOf (m : Model) (v : MState) : List MState :=
  match lookupTable m v with
  | none => []
  | some ts => ts.map fun p => nextStateOf v p.1

/-- The total number of transitions in the table. -/
def totalTrans (m : Model) : Nat := (m.table.map fun e => e.2.length).sum

/-- Breadth-first search worker: pop the front of the queue; skip it if
already visited, else mark it visited and enqueue all its successors at the
back of the queue. -/
def bfsAux (m : Model) : Nat → List MState → List MState → List MState
  | 0, _, vis => vis
  | _ + 1, [], vis => vis
  | fuel + 1, q :: qs, vis =>
    if q ∈ vis then bfsAux m fuel qs vis
    else bfsAux m fuel (qs ++ succsOf m q) (vis ++ [q])

/-- Fuel sufficient for the breadth-first search to drain its queue. -/
def bfsFuel (m : Model) : Nat := fuelBound m * (totalTrans m + 1) + 1

/-- Breadth-first search for the states reachable from the begin state, in
first-discovery order. -/
def bfs (m : Model) : List MState := bfsAux m (bfsFuel m) [beginningState m] []

example : bfs cm1 = [["___BEGIN__"], ["a"], ["___END__"]] := by decide

theorem mem_le_listsum {l : List Nat} {x : Nat} (h : x ∈ l) : x ≤ l.sum := by
  induction l with
  | nil => simp at h
  | cons a rest ih =>
    rw [List.mem_cons] at h
    rw [List.sum_cons]
    rcases h with rfl | h
    · omega
    · have := ih h
      omega

theorem succsOf_subset_univ (m : Model) (q : MState) :
    ∀ u ∈ succsOf m q, u ∈ universeList m := by
  intro u hu
  rw [succsOf] at hu
  match hlk : lookupTable m q with
  | none =>
    rw [hlk] at hu
    simp at hu
  | some ts =>
    rw [hlk] at hu
    simp only [List.mem_map] at hu
    obtain ⟨p, hp, rfl⟩ := hu
    exact nextState_mem_universe hlk hp

theorem succsOf_length_le (m : Model) (q : MState) :
    (succsOf m q).length ≤ totalTrans m := by
  rw [succsOf, totalTrans]
  match hlk : lookupTable m q with
  | none => simp
  | some ts =>
    simp only []
    rw [List.length_map]
    have hmem : (q, ts) ∈ m.table := lookup_mem hlk
    exact mem_le_listsum (List.mem_map.mpr ⟨(q, ts), hmem, rfl⟩)

theorem mem_succsOf {m : Model} {q u : MState} :
    u ∈ succsOf m q ↔ ∃ ts, lookupTable m q = some ts ∧
      ∃ p ∈ ts, u = nextStateOf q p.1 := by
  rw [succsOf]
  match hlk : lookupTable m q with
  | none => simp
  | some ts =>
    simp only [List.mem_map, Option.some.injEq]
    constructor
    · rintro ⟨p, hp, rfl⟩
      exact ⟨ts, rfl, p, hp, rfl⟩
    · rintro ⟨ts2, hts2, p, hp, rfl⟩
      subst hts2
      exact ⟨p, hp, rfl⟩

theorem bfsAux_sound (m : Model) :
    ∀ fuel queue vis, (∀ v ∈ queue, Reach m v) → (∀ v ∈ vis, Reach m v) →
      ∀ v ∈ bfsAux m fuel queue vis, Reach m v := by
  intro fuel
  induction fuel with
  | zero =>
    intro queue vis hq hv v hmem
    rw [bfsAux] at hmem
    exact hv v hmem
  | succ fuel ih =>
    intro queue vis hq hv v hmem
    match queue with
    | [] =>
      rw [bfsAux] at hmem
      exact hv v hmem
    | q :: qs =>
      rw [bfsAux] at hmem
      by_cases hqv : q ∈ vis
      · rw [if_pos hqv] at hmem
        exact ih qs vis (fun u hu => hq u (List.mem_cons_of_mem _ hu)) hv v hmem
      · rw [if_neg hqv] at hmem
        refine ih _ _ ?_ ?_ v hmem
        · intro u hu
          rcases List.mem_append.mp hu with hu | hu
          · exact hq u (List.mem_cons_of_mem _ hu)
          · obtain ⟨ts, hlk, p, hp, rfl⟩ := mem_succsOf.mp hu
            exact Reach.step (hq q (List.mem_cons_self _ _)) hlk hp
        · intro u hu
          rcases List.mem_append.mp hu with hu | hu
          · exact hv u hu
          · rw [List.mem_singleton] at hu
            subst hu
            exact hq u (List.mem_cons_self _ _)

theorem bfsAux_complete (m : Model) :
    ∀ fuel queue vis,
      (fuelBound m - vis.length) * (totalTrans m + 1) + queue.length ≤ fuel →
      (∀ v ∈ vis, ∀ u ∈ succsOf m v, u ∈ vis ++ queue) →
      vis.Nodup →
      (∀ v ∈ vis, v ∈ universeList m) →
      (∀ v ∈ queue, v ∈ universeList m) →
      (∀ v ∈ vis, v ∈ bfsAux m fuel queue vis) ∧
      (∀ v ∈ queue, v ∈ bfsAux m fuel queue vis) ∧
      (∀ v ∈ bfsAux m fuel queue vis, ∀ u ∈ succsOf m v,
        u ∈ bfsAux m fuel queue vis) := by
  intro fuel
  induction fuel with
  | zero =>
    intro queue vis hM hclosed hnd huniv hquniv
    have hq0 : queue = [] := by
      have : queue.length = 0 := by omega
      exact List.length_eq_zero.mp this
    subst hq0
    rw [bfsAux]
    refine ⟨fun v hv => hv, fun v hv => by simp at hv, ?_⟩
    intro v hv u hu
    have := hclosed v hv u hu
    rwa [List.append_nil] at this
  | succ fuel ih =>
    intro queue vis hM hclosed hnd huniv hquniv
    match queue with
    | [] =>
      rw [bfsAux]
      refine ⟨fun v hv => hv, fun v hv => by simp at hv, ?_⟩
      intro v hv u hu
      have := hclosed v hv u hu
      rwa [List.append_nil] at this
    | q :: qs =>
      rw [bfsAux]
      by_cases hqv : q ∈ vis
      · rw [if_pos hqv]
        have hM2 : (fuelBound m - vis.length) * (totalTrans m + 1) +
            qs.length ≤ fuel := by
          simp only [List.length_cons] at hM
          omega
        have hclosed2 : ∀ v ∈ vis, ∀ u ∈ succsOf m v, u ∈ vis ++ qs := by
          intro v hv u hu
          rcases List.mem_append.mp (hclosed v hv u hu) with h1 | h1
          · exact List.mem_append_left _ h1
          · rcases List.mem_cons.mp h1 with rfl | h2
            · exact List.mem_append_left _ hqv
            · exact List.mem_append_right _ h2
        obtain ⟨h1, h2, h3⟩ := ih qs vis hM2 hclosed2 hnd huniv
          (fun v hv => hquniv v (List.mem_cons_of_mem _ hv))
        refine ⟨h1, ?_, h3⟩
        intro v hv
        rcases List.mem_cons.mp hv with rfl | h4
        · exact h1 v hqv
        · exact h2 v h4
      · rw [if_neg hqv]
        have hqu : q ∈ universeList m := hquniv q (List.mem_cons_self _ _)
        have hnd2 : (vis ++ [q]).Nodup := by
          rw [List.nodup_append]
          exact ⟨hnd, List.nodup_singleton q, by
            intro a ha hb
            rw [List.mem_singleton] at hb
            subst hb
            exact hqv ha⟩
        have huniv2 : ∀ v ∈ vis ++ [q], v ∈ universeList m := by
          intro v hv
          rcases List.mem_append.mp hv with h1 | h1
          · exact huniv v h1
          · rw [List.mem_singleton] at h1
            subst h1
            exact hqu
        have hvl : vis.length + 1 ≤ fuelBound m := by
          have := subset_univ_length hnd2 huniv2
          simp only [List.length_append, List.length_singleton] at this
          omega
        have hsl : (succsOf m q).length ≤ totalTrans m := succsOf_length_le m q
        have hexp : (fuelBound m - vis.length) * (totalTrans m + 1) =
            (fuelBound m - (vis.length + 1)) * (totalTrans m + 1) +
              (totalTrans m + 1) := by
          have h : fuelBound m - vis.length =
              (fuelBound m - (vis.length + 1)) + 1 := by omega
          rw [h]
          ring
        have hM2 : (fuelBound m - (vis ++ [q]).length) * (totalTrans m + 1) +
            (qs ++ succsOf m q).length ≤ fuel := by
          simp only [List.length_append, List.length_cons, List.length_nil,
            Nat.zero_add] at hM ⊢
          rw [hexp] at hM
          set P := (fuelBound m - (vis.length + 1)) * (totalTrans m + 1) with hP
          omega
        have hclosed2 : ∀ v ∈ vis ++ [q], ∀ u ∈ succsOf m v,
            u ∈ (vis ++ [q]) ++ (qs ++ succsOf m q) := by
          intro v hv u hu
          rcases List.mem_append.mp hv with h1 | h1
          · rcases List.mem_append.mp (hclosed v h1 u hu) with h2 | h2
            · exact List.mem_append_left _ (List.mem_append_left _ h2)
            · rcases List.mem_cons.mp h2 with rfl | h3
              · exact List.mem_append_left _ (List.mem_append_right _
                  (List.mem_singleton.mpr rfl))
              · exact List.mem_append_right _ (List.mem_append_left _ h3)
          · rw [List.mem_singleton] at h1
            subst h1
            exact List.mem_append_right _ (List.mem_append_right _ hu)
        have hquniv2 : ∀ v ∈ qs ++ succsOf m q, v ∈ universeList m := by
          intro v hv
          rcases List.mem_append.mp hv with h1 | h1
          · exact hquniv v (List.mem_cons_of_mem _ h1)
          · exact succsOf_subset_univ m q v h1
        obtain ⟨h1, h2, h3⟩ := ih (qs ++ succsOf m q) (vis ++ [q]) hM2
          hclosed2 hnd2 huniv2 hquniv2
        refine ⟨?_, ?_, h3⟩
        · intro v hv
          exact h1 v (List.mem_append_left _ hv)
        · intro v hv
          rcases List.mem_cons.mp hv with rfl | h4
          · exact h1 v (List.mem_append_right _ (List.mem_singleton.mpr rfl))
          · exact h2 v (List.mem_append_left _ h4)

theorem mem_bfs_iff_reach (m : Model) (v : MState) :
    v ∈ bfs m ↔ Reach m v := by
  constructor
  · intro h
    rw [bfs] at h
    refine bfsAux_sound m (bfsFuel m) [beginningState m] [] ?_ ?_ v h
    · intro u hu
      rw [List.mem_singleton] at hu
      subst hu
      exact Reach.base
    · intro u hu
      simp at hu
  · intro h
    rw [bfs]
    have hc := bfsAux_complete m (bfsFuel m) [beginningState m] []
      (by rw [bfsFuel]; simp)
      (by intro v hv; simp at hv)
      List.nodup_nil
      (by intro v hv; simp at hv)
      (by
        intro u hu
        rw [List.mem_singleton] at hu
        subst hu
        rw [universeList]
        exact List.mem_cons_self _ _)
    obtain ⟨h1, h2, h3⟩ := hc
    induction h with
    | base => exact h2 _ (List.mem_singleton.mpr rfl)
    | step hr hlk hp ih =>
      refine h3 _ ih _ ?_
      exact mem_succsOf.mpr ⟨_, hlk, _, hp, rfl⟩

/-- C8: on every trained model, the traversal performed by extract registers
each state reachable from the BEGIN sentinel exactly once, even when the
transition structure contains cycles: the node list is duplicate-free and its
members are exactly the states found by an independent breadth-first search
over the same transition table. -/
theorem C8_nodes_eq_bfs_reachable (m : Model) :
    (extract m).vertices.Nodup ∧
    (∀ v : MState, v ∈ (extract m).vertices ↔ v ∈ bfs m) := by
  refine ⟨(extract_out m).inv.nodup, fun v => ?_⟩
  rw [mem_bfs_iff_reach]
  exact ⟨extract_mem_reach, reach_mem_extract⟩


end Shikaku
